import Mathlib

/-!
# Churn — verification of the priority-curve, recurrence, dependency and CLI layers

A shallow embedding of the churn task manager.  Sources embedded here:

* `src/docs/03-curves.md` — the curve implementations (`LinearCurve`,
  `ExponentialCurve`, `HardWindowCurve`, `BlockedCurve`, `AccumulatorCurve`)
  and the midnight-crossing window membership test;
* `src/docs/07-recurrence.md` — `calculateNextDue` and its helpers;
* `src/docs/08-dependencies.md` — `allDependenciesComplete`,
  `updateDependencyStatus`, `onTaskComplete`, `hasCircularDependency`;
* `src/src/cli/commands/task.ts` — `parseDuration`, `parseTaskDescription`,
  `deleteTask`;
* the configuration loader (`loadConfig`) and the database export/import
  contract.

Machine reals (`number`) are embedded as rationals: every formula in the
sources uses only field operations and comparisons, so the rational value is
the exact value of the ideal computation.  JavaScript `Date` values are
embedded as a civil day index (days since 1970-01-01) plus a minute-of-day;
epoch milliseconds are `Int`s.
-/

namespace Churn

/-! ## Statuses, recurrence patterns and curve configurations (src/core/types) -/

/-- Task status, `TaskStatus` in `src/core/types`. -/
inductive TStatus where
  | open_
  | inProgress
  | completed
  | blocked
deriving DecidableEq, Repr

/-- `RecurrenceMode` — calendar- or completion-anchored schedules. -/
inductive RecMode where
  | calendar
  | completion
deriving DecidableEq, Repr

/-- `RecurrenceType`. -/
inductive RecType where
  | daily
  | weekly
  | monthly
  | interval
deriving DecidableEq, Repr

/-- `unit` of an interval recurrence: `'days' | 'weeks' | 'months'`. -/
inductive IntervalUnit where
  | days
  | weeks
  | months
deriving DecidableEq, Repr

/-- `RecurrencePattern` (the fields used by the embedded code paths). -/
structure RecurrencePattern where
  mode : RecMode
  rtype : RecType
  interval : Option Nat := none
  unit : Option IntervalUnit := none
  dayOfWeek : Option Nat := none
deriving DecidableEq, Repr

/-- `CurveConfig`, the closed sum type of curve variants.  Dates inside the
configs are epoch milliseconds.  The exponential curve's `exponent` is carried
as a natural number: the source allows reals in `[1,5]` (default `2.0`), and
no claim evaluates a non-integral exponent. -/
inductive CurveCfg where
  | linear (startDate deadline : Int)
  | exponential (startDate deadline : Int) (exponent : Nat)
  | hardWindow (windowStart windowEnd : Int) (priority : ℚ)
  | blocked (dependencies : List Nat) (thenCurve : CurveCfg)
  | accumulator (recurrence : RecurrencePattern) (lastCompleted : Option Int)
      (nextDue : Int) (buildupRate : ℚ)
deriving DecidableEq, Repr

/-- `AccumulatorCurve.getExpectedIntervalDays` (src/docs/03-curves.md):
Daily = 1, Weekly = 7, Monthly = 30, Interval = interval × unit days
(defaulting a missing interval to 1), anything else 7. -/
def getExpectedIntervalDays (r : RecurrencePattern) : Nat :=
  match r.rtype with
  | .daily => 1
  | .weekly => 7
  | .monthly => 30
  | .interval =>
      let unitDays : Nat :=
        match r.unit with
        | some .days => 1
        | some .weeks => 7
        | some .months => 30
        | none => 1
      r.interval.getD 1 * unitDays

/-- Milliseconds per day, `86400000` in the sources. -/
def msPerDay : Int := 86400000

/-- `LinearCurve.calculate` (src/docs/03-curves.md lines 68-82). -/
def linearCalculate (startMs endMs now : Int) : ℚ :=
  if now < startMs then 0
  else if now > endMs then
    1 + ((now - endMs : ℤ) : ℚ) / ((endMs - startMs : ℤ) : ℚ)
  else ((now - startMs : ℤ) : ℚ) / ((endMs - startMs : ℤ) : ℚ)

/-- `ExponentialCurve.calculate` (src/docs/03-curves.md lines 163-178). -/
def exponentialCalculate (startMs endMs now : Int) (exponent : Nat) : ℚ :=
  if now < startMs then 0
  else if now > endMs then
    1 + ((now - endMs : ℤ) : ℚ) / ((endMs - startMs : ℤ) : ℚ)
  else (((now - startMs : ℤ) : ℚ) / ((endMs - startMs : ℤ) : ℚ)) ^ exponent

/-- `HardWindowCurve.calculate` (src/docs/03-curves.md lines 267-277). -/
def hardWindowCalculate (startMs endMs : Int) (priority : ℚ) (now : Int) : ℚ :=
  if startMs ≤ now ∧ now ≤ endMs then priority else 0

/-- `AccumulatorCurve.calculate` (src/docs/03-curves.md lines 479-517).
`now` and `due` are epoch milliseconds; day quantities are exact rationals. -/
def accumulatorCalculate (r : RecurrencePattern) (lastCompleted : Option Int)
    (nextDue : Int) (now : Int) : ℚ :=
  let expectedDays : ℚ := (getExpectedIntervalDays r : ℚ)
  if r.mode = .calendar then
    let daysUntilDue : ℚ := ((nextDue - now : ℤ) : ℚ) / (msPerDay : ℚ)
    if daysUntilDue > expectedDays / 2 then (2 : ℚ) / 10
    else if daysUntilDue < 0 then
      min ((15 : ℚ) / 10) (1 + |daysUntilDue| * ((1 : ℚ) / 10))
    else
      let progress : ℚ := 1 - daysUntilDue / (expectedDays / 2)
      (2 : ℚ) / 10 + progress * ((8 : ℚ) / 10)
  else
    let lastDone : ℚ :=
      match lastCompleted with
      | some lc => (lc : ℚ)
      | none => (now : ℚ) - expectedDays * (msPerDay : ℚ)
    let daysSince : ℚ := ((now : ℚ) - lastDone) / (msPerDay : ℚ)
    let ratio : ℚ := daysSince / expectedDays
    if ratio < 1 / 2 then (1 : ℚ) / 10
    else if ratio < (8 : ℚ) / 10 then (3 : ℚ) / 10
    else if ratio < 1 then (6 : ℚ) / 10
    else if ratio < (12 : ℚ) / 10 then (9 : ℚ) / 10
    else 1

/-- Curve dispatch.  `depCompleted` is the observed completion status of a
task id at the evaluation instant (the `taskService.allDependenciesComplete`
collaborator of `BlockedCurve.calculate`, src/docs/03-curves.md
lines 361-373). -/
def curveCalculate (depCompleted : Nat → Bool) : CurveCfg → Int → ℚ
  | .linear s e, now => linearCalculate s e now
  | .exponential s e x, now => exponentialCalculate s e now x
  | .hardWindow ws we p, now => hardWindowCalculate ws we p now
  | .blocked deps thenCurve, now =>
      if deps.all depCompleted then curveCalculate depCompleted thenCurve now
      else 0
  | .accumulator r lc due rate, now =>
      let _ := rate
      accumulatorCalculate r lc due now

/-! ## The evaluator's universal gates

The task view the evaluator consumes: its dependency list, its optional
time-of-day window (`window_start`/`window_end`, HH:MM strings stored as
minute-of-day values), and its curve configuration. -/

/-- Task view for priority evaluation. -/
structure PTask where
  dependencies : List Nat
  window : Option (Nat × Nat) := none
  curve : CurveCfg
deriving DecidableEq, Repr

/-- An evaluation instant: epoch milliseconds together with the instant's
local minute-of-day (the sources derive the latter from the former through
the process time zone, which the embedding keeps abstract). -/
structure Instant where
  ms : Int
  localMin : Nat
deriving DecidableEq, Repr

/-- Window membership of a local minute-of-day.  The non-crossing case uses
the inclusive comparison of `HardWindowCurve.calculate`; the midnight-crossing
case is the check of src/docs/03-curves.md lines 321-326:
`const isInWindow = (now >= start) || (now <= end);` — inclusive of both the
start and the end minute. -/
def timeInWindow (ws we localMin : Nat) : Bool :=
  if ws ≤ we then ws ≤ localMin && localMin ≤ we
  else ws ≤ localMin || localMin ≤ we

/-- Modelled from the spec: the service-level priority evaluator
(`TaskService.calculatePriority`) is not under src/ — only the curve classes,
the window membership test and the tests are.  Per the spec, two universal
gates run before variant-specific math: the block gate (any dependency not
Completed forces priority 0, regardless of variant) and the time-window gate
(priority 0 outside the task's `window_start`/`window_end` at the instant's
local time). -/
def calculatePriority (depCompleted : Nat → Bool) (task : PTask)
    (t : Instant) : ℚ :=
  if task.dependencies.any (fun d => !depCompleted d) then 0
  else
    match task.window with
    | some (ws, we) =>
        if timeInWindow ws we t.localMin then
          curveCalculate depCompleted task.curve t.ms
        else 0
    | none => curveCalculate depCompleted task.curve t.ms

/-- Window membership as the claim states it: a midnight-crossing window
(`window_start > window_end`) contains the local times at or after the start
and strictly before the end — inclusive of the start, exclusive of the end.
This definition follows the claim's words, to be compared against
`timeInWindow`, which follows the source. -/
def claimTimeInWindow (ws we localMin : Nat) : Bool :=
  if ws > we then ws ≤ localMin || localMin < we
  else ws ≤ localMin && localMin < we

/-! ### Concrete tasks used by the curve claims

`2025-01-01T00:00:00Z = 1735689600000 ms`, `2025-01-10T00:00:00Z =
1736467200000 ms`, `2025-01-05T12:00:00Z = 1736078400000 ms`. -/

/-- The task of the linear-midpoint scenario: Linear curve with start
2025-01-01 and deadline 2025-01-10, no window, no dependencies. -/
def linearDemoTask : PTask :=
  { dependencies := []
    window := none
    curve := .linear 1735689600000 1736467200000 }

/-- 2025-01-05T12:00:00Z (local minute irrelevant: no window). -/
def linearDemoInstant : Instant := { ms := 1736078400000, localMin := 720 }

/-- A task whose window crosses midnight: 18:00 (minute 1080) to 08:00
(minute 480), with a Linear curve that is halfway through its range at
`ms = 720`. -/
def windowDemoTask : PTask :=
  { dependencies := []
    window := some (1080, 480)
    curve := .linear 0 1440 }

/-- An instant whose local time-of-day is exactly the window end, 08:00. -/
def windowDemoInstant : Instant := { ms := 720, localMin := 480 }

/-- A task with a single (incomplete) dependency and a Linear curve that is
strictly inside its active range at `ms = 720`. -/
def blockDemoTask : PTask :=
  { dependencies := [5]
    window := none
    curve := .linear 0 1440 }

/-- C1.  For a task with a Linear curve (deadline after start), no time
window and no incomplete dependency, priority at `t` is `0` before the start,
`(t−s)/(e−s)` inside `[s,e]`, and `1 + (t−e)/(e−s)` after the deadline; the
concrete task with start 2025-01-01 and deadline 2025-01-10 evaluated at
2025-01-05T12:00Z has priority exactly `1/2` (within the claim's `0.01`
tolerance). -/
theorem c1_linear_priority (task : PTask) (lookup : Nat → Bool) (s e : Int)
    (hc : task.curve = .linear s e) (hw : task.window = none)
    (hdeps : ∀ d ∈ task.dependencies, lookup d = true)
    (hse : s < e) (t : Instant) :
    (t.ms < s → calculatePriority lookup task t = 0) ∧
    (s ≤ t.ms → t.ms ≤ e →
      calculatePriority lookup task t =
        ((t.ms - s : ℤ) : ℚ) / ((e - s : ℤ) : ℚ)) ∧
    (e < t.ms →
      calculatePriority lookup task t =
        1 + ((t.ms - e : ℤ) : ℚ) / ((e - s : ℤ) : ℚ)) ∧
    calculatePriority (fun _ => true) linearDemoTask linearDemoInstant
      = 1 / 2 := by
  have hgate : task.dependencies.any (fun d => !lookup d) = false := by
    simp only [List.any_eq_false]
    intro x hx
    simp [hdeps x hx]
  have hbase : calculatePriority lookup task t =
      linearCalculate s e t.ms := by
    simp [calculatePriority, hgate, hw, hc, curveCalculate]
  refine ⟨?_, ?_, ?_, by norm_num [calculatePriority, linearDemoTask,
    linearDemoInstant, curveCalculate, linearCalculate]⟩
  · intro hlt
    simp [hbase, linearCalculate, hlt]
  · intro h1 h2
    have hn1 : ¬ t.ms < s := not_lt.mpr h1
    have hn2 : ¬ t.ms > e := not_lt.mpr h2
    simp [hbase, linearCalculate, hn1, hn2]
  · intro hgt
    have hn1 : ¬ t.ms < s := not_lt.mpr (le_of_lt (lt_of_le_of_lt
      (le_of_lt hse) hgt))
    simp [hbase, linearCalculate, hn1, hgt]

/-- Witness for C1 at the linear-midpoint scenario. -/
theorem c1_linear_priority_witness :
    calculatePriority (fun _ => true) linearDemoTask linearDemoInstant
      = ((1736078400000 - 1735689600000 : ℤ) : ℚ) /
        ((1736467200000 - 1735689600000 : ℤ) : ℚ) :=
  (c1_linear_priority linearDemoTask (fun _ => true)
    1735689600000 1736467200000 rfl rfl
    (by intro d hd; simp [linearDemoTask] at hd)
    (by decide) linearDemoInstant).2.1 (by decide) (by decide)

/-- C2.  A task with at least one dependency that is not Completed has
priority 0 at every instant, whatever its curve variant: the block gate runs
before variant dispatch. -/
theorem c2_block_gate (task : PTask) (lookup : Nat → Bool) (t : Instant)
    (d : Nat) (hd : d ∈ task.dependencies) (hinc : lookup d = false) :
    calculatePriority lookup task t = 0 := by
  have hgate : task.dependencies.any (fun x => !lookup x) = true := by
    refine List.any_eq_true.mpr ⟨d, hd, ?_⟩
    simp [hinc]
  simp [calculatePriority, hgate]

/-- Witness for C2: the demo task with incomplete dependency 5 has priority 0
even though its own curve is Linear (not the Blocked variant) and the instant
is inside the curve's active range. -/
theorem c2_block_gate_witness :
    calculatePriority (fun _ => false) blockDemoTask
      { ms := 720, localMin := 0 } = 0 :=
  c2_block_gate blockDemoTask (fun _ => false) { ms := 720, localMin := 0 }
    5 (by decide) rfl

/-- C3, counterexample.  The claim makes a midnight-crossing window exclusive
of its end minute; the source's membership test
(`(now >= start) || (now <= end)`, src/docs/03-curves.md line 325) is
inclusive.  At local time 08:00 — the window end of an 18:00–08:00 window,
hence outside the window as the claim reads it — the priority is the curve
value `1/2`, not `0`. -/
theorem c3_window_exclusive_counterexample :
    windowDemoTask.window = some (1080, 480) ∧
    claimTimeInWindow 1080 480 windowDemoInstant.localMin = false ∧
    calculatePriority (fun _ => true) windowDemoTask windowDemoInstant
      = 1 / 2 ∧ ((1 : ℚ) / 2 ≠ 0) := by
  refine ⟨rfl, by decide, ?_, by norm_num⟩
  norm_num [calculatePriority, windowDemoTask, windowDemoInstant,
    curveCalculate, linearCalculate, timeInWindow]

/-- C3, amended.  For a task with a time window, priority is 0 at every
instant whose local time-of-day is outside the window, where a window with
`window_start > window_end` spans midnight and contains the local times at or
after the start and at or before the end — inclusive of both endpoints. -/
theorem c3_window_gate (task : PTask) (ws we : Nat) (lookup : Nat → Bool)
    (t : Instant) (hw : task.window = some (ws, we)) :
    (timeInWindow ws we t.localMin = false →
      calculatePriority lookup task t = 0) ∧
    (we < ws →
      (timeInWindow ws we t.localMin = true ↔
        ws ≤ t.localMin ∨ t.localMin ≤ we)) := by
  constructor
  · intro hout
    by_cases hgate : task.dependencies.any (fun d => !lookup d) = true
    · simp [calculatePriority, hgate]
    · simp only [Bool.not_eq_true] at hgate
      simp [calculatePriority, hgate, hw, hout]
  · intro hlt
    have : ¬ ws ≤ we := not_le.mpr hlt
    simp [timeInWindow, this]

/-- Witness for C3 (amended): the 18:00–08:00 window task evaluated at local
10:00 (minute 600, outside the window) has priority 0, and minute 480 is
inside the inclusive midnight-crossing window. -/
theorem c3_window_gate_witness :
    calculatePriority (fun _ => true) windowDemoTask
      { ms := 720, localMin := 600 } = 0 ∧
    (timeInWindow 1080 480 480 = true ↔ 1080 ≤ 480 ∨ 480 ≤ 480) :=
  ⟨(c3_window_gate windowDemoTask 1080 480 (fun _ => true)
      { ms := 720, localMin := 600 } rfl).1 (by decide),
   (c3_window_gate windowDemoTask 1080 480 (fun _ => true)
      { ms := 720, localMin := 480 } rfl).2 (by decide)⟩

/-! ## Recurrence engine (src/docs/07-recurrence.md)

Local datetimes are a civil day index (days since 1970-01-01 local) plus a
minute-of-day.  1970-01-01 was a Thursday, so JavaScript's
`Date.prototype.getDay` is `(day + 4) mod 7`. -/

/-- A local datetime: civil day index and minute-of-day. -/
structure LocalDT where
  day : Int
  minute : Nat
deriving DecidableEq, Repr

/-- `getDay()` — 0 = Sunday … 6 = Saturday. -/
def weekdayOf (day : Int) : Int := (day + 4) % 7

/-- Total minutes since the epoch, the order on local datetimes. -/
def toTotalMinutes (t : LocalDT) : Int := t.day * 1440 + t.minute

/-- Epoch milliseconds of a local datetime. -/
def localToMs (t : LocalDT) : Int := t.day * 86400000 + t.minute * 60000

/-- Local datetime of an epoch-millisecond value (floor to the minute). -/
def msToLocal (ms : Int) : LocalDT :=
  { day := Int.fdiv ms 86400000
    minute := (Int.fdiv (Int.emod ms 86400000) 60000).toNat }

/-- A civil calendar date (month 1–12, day 1–31). -/
structure CivilDate where
  year : Int
  month : Nat
  day : Nat
deriving DecidableEq, Repr

/-- Gregorian leap-year test. -/
def isLeap (y : Int) : Bool := y % 4 == 0 && (y % 100 != 0 || y % 400 == 0)

/-- Length of a month. -/
def daysInMonth (y : Int) (m : Nat) : Nat :=
  if m = 2 then (if isLeap y then 29 else 28)
  else if m = 4 ∨ m = 6 ∨ m = 9 ∨ m = 11 then 30
  else 31

/-- Civil date → day index (days-from-civil). -/
def civilToDay (c : CivilDate) : Int :=
  let y : Int := if c.month ≤ 2 then c.year - 1 else c.year
  let era : Int := Int.fdiv y 400
  let yoe : Int := y - era * 400
  let mp : Int := if c.month > 2 then (c.month : Int) - 3 else (c.month : Int) + 9
  let doy : Int := Int.fdiv (153 * mp + 2) 5 + (c.day : Int) - 1
  let doe : Int := yoe * 365 + Int.fdiv yoe 4 - Int.fdiv yoe 100 + doy
  era * 146097 + doe - 719468

/-- Day index → civil date (civil-from-days). -/
def dayToCivil (z₀ : Int) : CivilDate :=
  let z : Int := z₀ + 719468
  let era : Int := Int.fdiv z 146097
  let doe : Int := z - era * 146097
  let yoe : Int :=
    Int.fdiv (doe - Int.fdiv doe 1460 + Int.fdiv doe 36524 - Int.fdiv doe 146096) 365
  let y : Int := yoe + era * 400
  let doy : Int := doe - (365 * yoe + Int.fdiv yoe 4 - Int.fdiv yoe 100)
  let mp : Int := Int.fdiv (5 * doy + 2) 153
  let d : Int := doy - Int.fdiv (153 * mp + 2) 5 + 1
  let m : Int := if mp < 10 then mp + 3 else mp - 9
  { year := if m ≤ 2 then y + 1 else y, month := m.toNat, day := d.toNat }

/-- `next.setMonth(next.getMonth() + 1)` — JavaScript keeps the day-of-month
and lets an overflow roll into the following month (Jan 31 → "Feb 31" →
Mar 3).  One correction step suffices: the day is at most 31 and every month
has at least 28 days, so the excess is at most 3. -/
def jsAddOneMonth (c : CivilDate) : CivilDate :=
  let y2 : Int := if c.month = 12 then c.year + 1 else c.year
  let m2 : Nat := if c.month = 12 then 1 else c.month + 1
  let dim := daysInMonth y2 m2
  if c.day > dim then
    let y3 : Int := if m2 = 12 then y2 + 1 else y2
    let m3 : Nat := if m2 = 12 then 1 else m2 + 1
    { year := y3, month := m3, day := c.day - dim }
  else { year := y2, month := m2, day := c.day }

/-- Modelled from the spec: "Add one calendar month to `now`; if target day
does not exist in the target month, clamp to last day."  The comparison
definition for C6. -/
def clampedAddOneMonth (c : CivilDate) : CivilDate :=
  let y2 : Int := if c.month = 12 then c.year + 1 else c.year
  let m2 : Nat := if c.month = 12 then 1 else c.month + 1
  { year := y2, month := m2, day := min c.day (daysInMonth y2 m2) }

/-- `getIntervalMilliseconds` (src/docs/07-recurrence.md lines 103-113). -/
def getIntervalMilliseconds (interval : Nat) (u : IntervalUnit) : Int :=
  match u with
  | .days => (interval : Int) * 86400000
  | .weeks => (interval : Int) * 604800000
  | .months => (interval : Int) * 2592000000

/-- `calculateCalendarNextDue` (src/docs/07-recurrence.md lines 50-93).
`now` arrives with its time zeroed to local midnight.  The interval branch
counts whole periods from the anchor with a floor division, exactly
`Math.floor(timeSinceAnchor / intervalMs)`.  A pattern whose interval/unit is
missing on a branch that needs them is rejected (`none`). -/
def calculateCalendarNextDue (p : RecurrencePattern) (now : LocalDT)
    (anchor : LocalDT) : Option LocalDT :=
  match p.rtype with
  | .daily => some { day := now.day + 1, minute := now.minute }
  | .weekly =>
      match p.dayOfWeek with
      | some target =>
          let currentDay := weekdayOf now.day
          let du0 : Int := (target : Int) - currentDay
          let du : Int := if du0 ≤ 0 then du0 + 7 else du0
          some { day := now.day + du, minute := now.minute }
      | none => some { day := now.day + 7, minute := now.minute }
  | .monthly => some { day := civilToDay (jsAddOneMonth (dayToCivil now.day))
                       minute := now.minute }
  | .interval =>
      match p.interval, p.unit with
      | some i, some u =>
          let intervalMs := getIntervalMilliseconds i u
          let anchorMs := localToMs anchor
          let timeSinceAnchor := localToMs now - anchorMs
          let periods := Int.fdiv timeSinceAnchor intervalMs
          some (msToLocal (anchorMs + (periods + 1) * intervalMs))
      | _, _ => none

/-- `calculateCompletionNextDue` (src/docs/07-recurrence.md lines 95-101). -/
def calculateCompletionNextDue (p : RecurrencePattern) (lastCompleted : LocalDT) :
    Option LocalDT :=
  match p.interval, p.unit with
  | some i, some u =>
      some (msToLocal (localToMs lastCompleted + getIntervalMilliseconds i u))
  | _, _ => none

/-- `calculateNextDue` (src/docs/07-recurrence.md lines 30-48).  The doc
sketch reads the wall clock for `now`; the tests
(src/tests/core/task-service.test.ts lines 357-409) fix the evaluation
instant to the completion time, so the embedding takes `now` as a
parameter.  Calendar mode zeroes `now`'s time (`now.setHours(0,0,0,0)`) and
ignores `lastCompleted`; completion mode anchors on
`lastCompleted || createdAt`. -/
def calculateNextDue (p : RecurrencePattern) (lastCompleted : Option LocalDT)
    (createdAt : LocalDT) (now : LocalDT) : Option LocalDT :=
  if p.mode = .calendar then
    calculateCalendarNextDue p { day := now.day, minute := 0 } createdAt
  else
    calculateCompletionNextDue p (lastCompleted.getD createdAt)

/-- The weekly-Monday calendar pattern of the tests. -/
def weeklyMondayPattern : RecurrencePattern :=
  { mode := .calendar, rtype := .weekly, dayOfWeek := some 1 }

/-- The monthly calendar pattern. -/
def monthlyPattern : RecurrencePattern :=
  { mode := .calendar, rtype := .monthly }

/-- C5.  Completing a calendar-weekly task with `dayOfWeek = d` at any
instant yields a next-due instant that falls on weekday `d` and is strictly
after the completion instant; if the completion day already is weekday `d`
the next occurrence is 7 days later; and the concrete Monday-weekly task
completed on Wednesday 2025-01-08 (day 20096) is next due on Monday
2025-01-13 (day 20101) — the skipped Monday is not backfilled. -/
theorem c5_weekly_calendar (p : RecurrencePattern) (target : Nat)
    (hm : p.mode = .calendar) (ht : p.rtype = .weekly)
    (hd : p.dayOfWeek = some target) (htarget : target < 7)
    (lastCompleted : Option LocalDT) (createdAt now next : LocalDT)
    (hmin : now.minute < 1440)
    (hnext : calculateNextDue p lastCompleted createdAt now = some next) :
    weekdayOf next.day = target ∧
    toTotalMinutes now < toTotalMinutes next ∧
    (weekdayOf now.day = target → next.day = now.day + 7) ∧
    calculateNextDue weeklyMondayPattern (some { day := 20096, minute := 600 })
      { day := 20089, minute := 0 } { day := 20096, minute := 600 }
      = some { day := 20101, minute := 0 } := by
  have hcur : 0 ≤ weekdayOf now.day ∧ weekdayOf now.day < 7 := by
    unfold weekdayOf
    constructor
    · exact Int.emod_nonneg _ (by norm_num)
    · exact Int.emod_lt_of_pos _ (by norm_num)
  have hmod : (now.day + 4) % 7 = weekdayOf now.day := rfl
  set cur := weekdayOf now.day with hcurdef
  have hnext' : next =
      { day := now.day + (if (target : Int) - cur ≤ 0
          then (target : Int) - cur + 7 else (target : Int) - cur)
        minute := 0 } := by
    unfold calculateNextDue at hnext
    rw [if_pos hm] at hnext
    unfold calculateCalendarNextDue at hnext
    rw [ht] at hnext
    simp only [hd] at hnext
    exact (Option.some_injective _ hnext).symm
  obtain ⟨hc0, hc7⟩ := hcur
  refine ⟨?_, ?_, ?_, by decide⟩
  · rw [hnext']
    show (now.day + _ + 4) % 7 = (target : Int)
    have : (now.day + 4) % 7 = cur := hmod
    split_ifs with h <;> omega
  · rw [hnext']
    unfold toTotalMinutes
    simp only
    split_ifs with h <;> omega
  · intro heq
    rw [hnext']
    simp only
    rw [heq]
    simp

/-- Witness for C5 at the test scenario (Wednesday completion, Monday
target). -/
theorem c5_weekly_calendar_witness :
    weekdayOf (20101 : Int) = (1 : Nat) ∧
    toTotalMinutes { day := 20096, minute := 600 }
      < toTotalMinutes { day := 20101, minute := 0 } :=
  let h := c5_weekly_calendar weeklyMondayPattern 1 rfl rfl rfl
    (by decide) (some { day := 20096, minute := 600 })
    { day := 20089, minute := 0 } { day := 20096, minute := 600 }
    { day := 20101, minute := 0 } (by decide) (by decide)
  ⟨h.1, h.2.1⟩

/-- C6 (code bug).  The calendar-monthly branch is
`next.setMonth(next.getMonth() + 1)`: completing on 2025-01-31 (day 20119)
produces 2025-03-03 (day 20150) — the day-of-month overflows February and
rolls into March — whereas the spec's clamping rule yields 2025-02-28.  The
code's own comment says "Next month, same day", and the spec twice demands
clamping (Jan 31 → Feb 28/29), so the roll-over is a slip. -/
theorem c6_monthly_rollover :
    calculateNextDue monthlyPattern none { day := 20089, minute := 0 }
      { day := 20119, minute := 300 } = some { day := 20150, minute := 0 } ∧
    dayToCivil 20119 = { year := 2025, month := 1, day := 31 } ∧
    dayToCivil 20150 = { year := 2025, month := 3, day := 3 } ∧
    clampedAddOneMonth { year := 2025, month := 1, day := 31 }
      = { year := 2025, month := 2, day := 28 } ∧
    civilToDay { year := 2025, month := 2, day := 28 } = 20147 ∧
    (20147 : Int) ≠ 20150 := by
  refine ⟨by decide, by decide, by decide, by decide, by decide, by decide⟩

/-! ## The CLI duration parser and description parser
(src/src/cli/commands/task.ts)

Strings are embedded as `List Char`.  `parseDuration` implements the regex
`^(?:(\d+)h)?(?:(\d+)m)?$`: an optional nonempty digit group followed by
`h`, then an optional nonempty digit group followed by `m`, then the end of
the input.  The regex is matched here by digit spans; no backtracking case is
lost because a string containing `h` can never match with the first group
skipped. -/

/-- `\d` — a decimal digit. -/
def isDigit10 (c : Char) : Bool := '0' ≤ c && c ≤ '9'

/-- `parseInt(ds, 10)` on a nonempty all-digit string. -/
def digitsVal (cs : List Char) : Nat :=
  cs.foldl (fun n c => 10 * n + (c.toNat - '0'.toNat)) 0

/-- The trailing `(?:(\d+)m)?$` of the duration regex: the remaining input is
either empty (group absent, 0 minutes) or a nonempty digit group followed by
exactly `m`. -/
def parseDurationTail (cs : List Char) : Option Nat :=
  if cs = [] then some 0
  else if cs.takeWhile isDigit10 ≠ [] ∧ cs.dropWhile isDigit10 = ['m'] then
    some (digitsVal (cs.takeWhile isDigit10))
  else none

/-- `parseDuration` (src/src/cli/commands/task.ts lines 623-633): the matched
hour group contributes `hours * 60`, the minute group its value; a failed
match is the thrown `Invalid duration` error (`none`).  The first group
matches exactly when a nonempty digit prefix is followed by `h` (when the
digit prefix is empty no backtracking can save the group, and an input whose
digit prefix is followed by `h` can only match with the group consumed, since
the rest of the regex never accepts an `h`). -/
def parseDuration (cs : List Char) : Option Nat :=
  let d1 := cs.takeWhile isDigit10
  let r1 := cs.dropWhile isDigit10
  if r1.head? = some 'h' ∧ d1 ≠ [] then
    (parseDurationTail r1.tail).map (fun m => 60 * digitsVal d1 + m)
  else parseDurationTail cs

/-- `parseInt(s.trim(), 10)`: after trimming, an optional sign followed by a
digit prefix; `NaN` (none) when no digit follows.  Trailing garbage is
ignored, as `parseInt` does. -/
def parseIntJS (cs : List Char) : Option Int :=
  let t := (cs.dropWhile (· = ' ')).reverse.dropWhile (· = ' ') |>.reverse
  let core : List Char → Option Nat := fun ds =>
    let digits := ds.takeWhile isDigit10
    if digits = [] then none else some (digitsVal digits)
  match t with
  | '-' :: ds => (core ds).map (fun n => -(n : Int))
  | '+' :: ds => (core ds).map (fun n => (n : Int))
  | ds => (core ds).map (fun n => (n : Int))

/-- `split(sep)` on a character separator. -/
def splitOnChar (sep : Char) (cs : List Char) : List (List Char) :=
  cs.foldr
    (fun c acc =>
      match acc with
      | [] => [[c]]
      | g :: gs => if c = sep then [] :: (g :: gs) else (c :: g) :: gs)
    [[]]

/-- `/^\d{4}-\d{2}-\d{2}$/`. -/
def isDateToken (cs : List Char) : Bool :=
  match cs with
  | [a, b, c, d, '-', e, f, '-', g, h] =>
      isDigit10 a && isDigit10 b && isDigit10 c && isDigit10 d &&
      isDigit10 e && isDigit10 f && isDigit10 g && isDigit10 h
  | _ => false

/-- `new Date(token + 'T00:00:00')` — local midnight of the civil date named
by a `YYYY-MM-DD` token. -/
def dateOfToken (cs : List Char) : LocalDT :=
  match cs with
  | [a, b, c, d, '-', e, f, '-', g, h] =>
      { day := civilToDay
          { year := (digitsVal [a, b, c, d] : Int)
            month := digitsVal [e, f]
            day := digitsVal [g, h] }
        minute := 0 }
  | _ => { day := 0, minute := 0 }

/-- ASCII `toLowerCase`. -/
def lowerChar (c : Char) : Char :=
  if 'A' ≤ c ∧ c ≤ 'Z' then Char.ofNat (c.toNat + 32) else c

/-- The `CreateTaskInput` assembled by `parseTaskDescription`. -/
structure ParsedCreate where
  title : List Char := []
  project : Option (List Char) := none
  tags : List (List Char) := []
  deadline : Option LocalDT := none
  estimate_minutes : Option Nat := none
  dependencies : Option (List Int) := none
  window_start : Option (List Char) := none
  window_end : Option (List Char) := none
  curveType : Option (List Char) := none
deriving DecidableEq, Repr

/-- One iteration of the token loop of `parseTaskDescription`
(src/src/cli/commands/task.ts lines 517-579).  `i` is the token index,
`today` the wall-clock date consulted by the relative-date branch.  The
second component of the state collects the title tokens. -/
def parseDescStep (today : LocalDT) (i : Nat) (tok : List Char)
    (st : ParsedCreate × List (List Char)) :
    Except String (ParsedCreate × List (List Char)) :=
  let (acc, titleToks) := st
  if i = 0 ∧ isDateToken tok then
    .ok ({ acc with deadline := some (dateOfToken tok) }, titleToks)
  else if i = 0 ∧ (tok.map lowerChar = "today".data ∨
      tok.map lowerChar = "tomorrow".data) then
    let dl : LocalDT :=
      if tok.map lowerChar = "tomorrow".data
      then { day := today.day + 1, minute := 0 }
      else { day := today.day, minute := 0 }
    .ok ({ acc with deadline := some dl }, titleToks)
  else
    match tok with
    | '@' :: rest => .ok ({ acc with project := some rest }, titleToks)
    | '+' :: rest => .ok ({ acc with tags := acc.tags ++ [rest] }, titleToks)
    | '~' :: rest =>
        match parseDuration rest with
        | some n => .ok ({ acc with estimate_minutes := some n }, titleToks)
        | none => .error "Invalid duration"
    | '^' :: _ => .ok (acc, titleToks)
    | _ =>
        if "after:".data.isPrefixOf tok then
          let ids := (splitOnChar ',' (tok.drop 6)).filterMap parseIntJS
          .ok ({ acc with dependencies := some ids }, titleToks)
        else if "window:".data.isPrefixOf tok then
          let parts := splitOnChar '-' (tok.drop 7)
          .ok ({ acc with window_start := parts.head?,
                          window_end := parts.get? 1 }, titleToks)
        else .ok (acc, titleToks ++ [tok])

/-- The token loop. -/
def parseDescLoop (today : LocalDT) :
    Nat → List (List Char) → ParsedCreate × List (List Char) →
    Except String (ParsedCreate × List (List Char))
  | _, [], st => .ok st
  | i, tok :: rest, st => do
      let st' ← parseDescStep today i tok st
      parseDescLoop today (i + 1) rest st'

/-- `parseTaskDescription` (src/src/cli/commands/task.ts lines 505-598) over
the whitespace-split token list of the description.  `curveOpt` is the
`--curve` option, copied into the curve config at the end; an empty joined
title is the thrown `Task title is required` error. -/
def parseTaskDescription (today : LocalDT) (curveOpt : Option (List Char))
    (tokens : List (List Char)) : Except String ParsedCreate := do
  let (acc, titleToks) ← parseDescLoop today 0 tokens ({}, [])
  let title := List.intercalate [' '] titleToks
  if title = [] then .error "Task title is required"
  else .ok { acc with title := title, curveType := curveOpt }

/-- The four shapes matched by `^(?:(\d+)h)?(?:(\d+)m)?$`. -/
def DurationShape (cs : List Char) : Prop :=
  cs = [] ∨
  (∃ ds, (∀ c ∈ ds, isDigit10 c = true) ∧ ds ≠ [] ∧
    (cs = ds ++ ['h'] ∨ cs = ds ++ ['m'])) ∨
  (∃ ds1 ds2, (∀ c ∈ ds1, isDigit10 c = true) ∧ ds1 ≠ [] ∧
    (∀ c ∈ ds2, isDigit10 c = true) ∧ ds2 ≠ [] ∧
    cs = ds1 ++ 'h' :: (ds2 ++ ['m']))

/-- Splitting a digit prefix: `takeWhile`/`dropWhile` stop exactly at the
first non-digit. -/
theorem span_digits (ds rest : List Char)
    (hds : ∀ c ∈ ds, isDigit10 c = true)
    (hrest : ∀ c, rest.head? = some c → isDigit10 c = false) :
    (ds ++ rest).takeWhile isDigit10 = ds ∧
    (ds ++ rest).dropWhile isDigit10 = rest := by
  induction ds with
  | nil =>
      cases rest with
      | nil => simp
      | cons c cs =>
          have := hrest c rfl
          simp [List.takeWhile, List.dropWhile, this]
  | cons d ds ih =>
      have hd : isDigit10 d = true := hds d (by simp)
      have ih' := ih (fun c hc => hds c (by simp [hc]))
      simp [List.takeWhile, List.dropWhile, hd, ih'.1, ih'.2]

/-- `parseDurationTail` on a digit group followed by `m`. -/
theorem parseDurationTail_digits_m (ds : List Char)
    (hds : ∀ c ∈ ds, isDigit10 c = true) (hne : ds ≠ []) :
    parseDurationTail (ds ++ ['m']) = some (digitsVal ds) := by
  have hspan := span_digits ds ['m'] hds
    (fun c hc => by simp at hc; subst hc; decide)
  have hne' : ds ++ ['m'] ≠ [] := by simp
  unfold parseDurationTail
  rw [if_neg hne', hspan.1, hspan.2, if_pos ⟨hne, rfl⟩]

/-- Completeness of `parseDurationTail`: a successful match is empty or a
digit group followed by `m`. -/
theorem parseDurationTail_shapes (cs : List Char) (n : Nat)
    (h : parseDurationTail cs = some n) :
    cs = [] ∨ (∃ ds, (∀ c ∈ ds, isDigit10 c = true) ∧ ds ≠ [] ∧
      cs = ds ++ ['m']) := by
  unfold parseDurationTail at h
  by_cases hnil : cs = []
  · exact Or.inl hnil
  · right
    rw [if_neg hnil] at h
    by_cases hcond : cs.takeWhile isDigit10 ≠ [] ∧
        cs.dropWhile isDigit10 = ['m']
    · refine ⟨cs.takeWhile isDigit10, ?_, hcond.1, ?_⟩
      · intro c hc
        exact List.mem_takeWhile_imp hc
      · conv_lhs => rw [← List.takeWhile_append_dropWhile (p := isDigit10)
          (l := cs)]
        rw [hcond.2]
    · rw [if_neg hcond] at h
      exact absurd h (by simp)

/-- C9.  `parseDuration` returns `60*h + m` on inputs of the forms
`<h>h<m>m`, `<h>h`, `<m>m` (nonempty decimal digit groups); every successful
parse has one of those shapes or is the empty string (so every other
non-empty input throws); the empty string parses to 0; and consequently a
create description containing the bare token `~` (or `~0m`) yields
`estimate_minutes = 0` from `parseTaskDescription` with no error raised,
although the data model requires `estimate_minutes > 0`. -/
theorem c9_parse_duration (ds1 ds2 : List Char)
    (h1 : ∀ c ∈ ds1, isDigit10 c = true) (hne1 : ds1 ≠ [])
    (h2 : ∀ c ∈ ds2, isDigit10 c = true) (hne2 : ds2 ≠ []) :
    parseDuration (ds1 ++ 'h' :: (ds2 ++ ['m']))
      = some (60 * digitsVal ds1 + digitsVal ds2) ∧
    parseDuration (ds1 ++ ['h']) = some (60 * digitsVal ds1) ∧
    parseDuration (ds2 ++ ['m']) = some (digitsVal ds2) ∧
    (∀ cs n, parseDuration cs = some n → DurationShape cs) ∧
    parseDuration [] = some 0 ∧
    ((parseTaskDescription { day := 20000, minute := 0 } none
        ["Buy".data, "milk".data, "~".data]).toOption.map
          (fun p => p.estimate_minutes) = some (some 0)) ∧
    ((parseTaskDescription { day := 20000, minute := 0 } none
        ["Buy".data, "milk".data, "~0m".data]).toOption.map
          (fun p => p.estimate_minutes) = some (some 0)) := by
  have hh : ∀ c, ('h' :: (ds2 ++ ['m'])).head? = some c → isDigit10 c = false :=
    fun c hc => by simp at hc; subst hc; decide
  have hh2 : ∀ c, (['h'] : List Char).head? = some c → isDigit10 c = false :=
    fun c hc => by simp at hc; subst hc; decide
  refine ⟨?_, ?_, ?_, ?_, rfl, by decide, by decide⟩
  · have hspan := span_digits ds1 ('h' :: (ds2 ++ ['m'])) h1 hh
    unfold parseDuration
    simp only [hspan.1, hspan.2]
    rw [if_pos ⟨rfl, hne1⟩]
    simp only [List.tail_cons]
    rw [parseDurationTail_digits_m ds2 h2 hne2]
    rfl
  · have hspan := span_digits ds1 ['h'] h1 hh2
    unfold parseDuration
    simp only [hspan.1, hspan.2]
    rw [if_pos ⟨rfl, hne1⟩]
    rfl
  · have hspan := span_digits ds2 ['m'] h2
      (fun c hc => by simp at hc; subst hc; decide)
    unfold parseDuration
    simp only [hspan.1, hspan.2]
    rw [if_neg (by simp)]
    exact parseDurationTail_digits_m ds2 h2 hne2
  · intro cs n h
    unfold parseDuration at h
    by_cases hcond : (cs.dropWhile isDigit10).head? = some 'h' ∧
        cs.takeWhile isDigit10 ≠ []
    · rw [if_pos hcond] at h
      obtain ⟨m, hm, _⟩ := Option.map_eq_some'.mp h
      obtain ⟨hhead, hd1⟩ := hcond
      have hdrop : cs.dropWhile isDigit10 =
          'h' :: (cs.dropWhile isDigit10).tail := by
        cases hcase : cs.dropWhile isDigit10 with
        | nil => rw [hcase] at hhead; simp at hhead
        | cons a t =>
            rw [hcase] at hhead
            simp at hhead
            simp [hhead]
      have hsplit : cs = cs.takeWhile isDigit10 ++
          'h' :: (cs.dropWhile isDigit10).tail := by
        conv_lhs => rw [← List.takeWhile_append_dropWhile
          (p := isDigit10) (l := cs)]
        rw [← hdrop]
      rcases parseDurationTail_shapes _ m hm with h0 | ⟨ds, hds, hdne, heq⟩
      · refine Or.inr (Or.inl ⟨cs.takeWhile isDigit10, ?_, hd1, Or.inl ?_⟩)
        · intro c hc; exact List.mem_takeWhile_imp hc
        · conv_lhs => rw [hsplit]
          rw [h0]
      · refine Or.inr (Or.inr ⟨cs.takeWhile isDigit10, ds, ?_, hd1,
          hds, hdne, ?_⟩)
        · intro c hc; exact List.mem_takeWhile_imp hc
        · conv_lhs => rw [hsplit]
          rw [heq]
    · rw [if_neg hcond] at h
      rcases parseDurationTail_shapes cs n h with h0 | ⟨ds, hds, hdne, heq⟩
      · exact Or.inl h0
      · exact Or.inr (Or.inl ⟨ds, hds, hdne, Or.inr heq⟩)

/-- Witness for C9: `1h30m` parses to 90 minutes (the theorem applied at the
digit groups `1` and `30`). -/
theorem c9_parse_duration_witness :
    parseDuration "1h30m".data = some 90 :=
  (c9_parse_duration ['1'] ['3', '0'] (by decide) (by decide)
    (by decide) (by decide)).1

/-! ## Configuration loading (`loadConfig`, src/cli/config.ts)

`loadConfig` interacts with the file system and `JSON.parse`; the embedding
abstracts the outcome of that interaction into three cases: the file does not
exist, it exists but fails to parse, or it parses to a set of top-level keys.
Sections of a parsed file may themselves be partial — a runtime JSON object
need not carry every key its TypeScript type declares — which is what makes
the shallowness of `{ ...DEFAULT_CONFIG, ...loaded }` observable. -/

/-- The `database` section. -/
structure DatabaseSection where
  path : Option String
deriving DecidableEq, Repr

/-- The `defaults` section. -/
structure DefaultsSection where
  curve_type : Option String
  work_hours_start : Option String
  work_hours_end : Option String
deriving DecidableEq, Repr

/-- The `display` section. -/
structure DisplaySection where
  date_format : Option String
  time_format : Option String
deriving DecidableEq, Repr

/-- The `logging` section. -/
structure LoggingSection where
  level : Option String
  file : Option String
deriving DecidableEq, Repr

/-- `ChurnConfig` as a runtime value: each section is whatever object sits
under its top-level key. -/
structure ChurnConfig where
  database : DatabaseSection
  defaults : DefaultsSection
  display : DisplaySection
  logging : LoggingSection
deriving DecidableEq, Repr

/-- `DEFAULT_CONFIG` (src/cli/config.ts lines 24-41). -/
def DEFAULT_CONFIG : ChurnConfig :=
  { database := { path := some "~/.config/churn/churn.db" }
    defaults := { curve_type := some "linear"
                  work_hours_start := some "08:00"
                  work_hours_end := some "17:00" }
    display := { date_format := some "YYYY-MM-DD", time_format := some "24h" }
    logging := { level := some "info"
                 file := some "~/.config/churn/churn.log" } }

/-- The top-level keys present in a parsed config file. -/
structure PartialConfig where
  database : Option DatabaseSection := none
  defaults : Option DefaultsSection := none
  display : Option DisplaySection := none
  logging : Option LoggingSection := none
deriving DecidableEq, Repr

/-- The possible outcomes of reading the config path: `existsSync` false,
`JSON.parse` throwing, or a parsed object. -/
inductive ConfigFile where
  | absent
  | invalid
  | parsed (keys : PartialConfig)
deriving DecidableEq, Repr

/-- The object spread `{ ...DEFAULT_CONFIG, ...loaded }`: every top-level key
present in `loaded` replaces the default section whole. -/
def mergeConfig (base : ChurnConfig) (p : PartialConfig) : ChurnConfig :=
  { database := p.database.getD base.database
    defaults := p.defaults.getD base.defaults
    display := p.display.getD base.display
    logging := p.logging.getD base.logging }

/-- `loadConfig` (src/cli/config.ts lines 62-76): missing file → defaults;
parse failure → defaults (the `catch` swallows the error); success → shallow
merge over the defaults. -/
def loadConfig : ConfigFile → ChurnConfig
  | .absent => DEFAULT_CONFIG
  | .invalid => DEFAULT_CONFIG
  | .parsed p => mergeConfig DEFAULT_CONFIG p

/-- A parsed file whose `defaults` object carries only `curve_type`. -/
def partialDefaultsFile : PartialConfig :=
  { defaults := some { curve_type := some "exponential"
                       work_hours_start := none
                       work_hours_end := none } }

/-- C10.  `loadConfig` is total (every read outcome yields a config, never an
error): a missing file and an unparsable file both yield `DEFAULT_CONFIG`,
and a parsed file is shallow-merged over the defaults — top-level keys
replace their default section whole, so a partial `defaults` object erases
the default `work_hours_start` while an untouched top-level key keeps its
full default. -/
theorem c10_load_config (f : ConfigFile) (p : PartialConfig) :
    loadConfig .absent = DEFAULT_CONFIG ∧
    loadConfig .invalid = DEFAULT_CONFIG ∧
    loadConfig (.parsed p) = mergeConfig DEFAULT_CONFIG p ∧
    (loadConfig f = DEFAULT_CONFIG ∨
      ∃ q, f = .parsed q ∧ loadConfig f = mergeConfig DEFAULT_CONFIG q) ∧
    (loadConfig (.parsed partialDefaultsFile)).defaults.work_hours_start
      = none ∧
    (loadConfig (.parsed partialDefaultsFile)).database
      = DEFAULT_CONFIG.database := by
  refine ⟨rfl, rfl, rfl, ?_, rfl, rfl⟩
  cases f with
  | absent => exact Or.inl rfl
  | invalid => exact Or.inl rfl
  | parsed q => exact Or.inr ⟨q, rfl, rfl⟩

/-! ## Export / import round trip (C7)

`Database.export`/`Database.import` are not under src/ — only the CLI wrapper
(src/src/cli/commands/data.ts) and the tests
(src/tests/cli/commands/data.test.ts) are.  Modelled from the spec:
the export file carries `version`, `exported_at` and the full task, bucket
and completion rows (dates serialized in place); replace-mode import wipes
the store and inserts every row, keeping ids; merge mode (not needed by the
round-trip claim) re-allocates ids.  Import inserts row by row, skipping a
row whose id is already taken (a bucket also when its name is taken), and
reports imported/skipped counts. -/

/-- An exported/stored task row (the observable fields of §3: dependency
references, tags, project, bucket membership, status, recurrence and curve
data, dates as epoch milliseconds). -/
structure TaskRow where
  id : Nat
  title : String
  project : Option String := none
  bucket_id : Option Nat := none
  tags : List String := []
  deadline : Option Int := none
  estimate_minutes : Option Nat := none
  recurrence_pattern : Option RecurrencePattern := none
  window_start : Option String := none
  window_end : Option String := none
  dependencies : List Nat := []
  curve_config : CurveCfg
  status : TStatus
  last_completed_at : Option Int := none
  next_due_at : Option Int := none
  created_at : Int := 0
  updated_at : Int := 0
deriving DecidableEq, Repr

/-- A bucket row. -/
structure BucketRow where
  id : Nat
  name : String
  btype : String
deriving DecidableEq, Repr

/-- A completion row. -/
structure CompletionRow where
  id : Nat
  task_id : Nat
  completed_at : Int
  actual_minutes : Option Nat := none
  scheduled_minutes : Option Nat := none
  day_of_week : Nat
  hour_of_day : Nat
deriving DecidableEq, Repr

/-- The store state observed through list/get: the three row tables. -/
structure DBState where
  tasks : List TaskRow
  buckets : List BucketRow
  completions : List CompletionRow
deriving DecidableEq, Repr

/-- The export file of §6: version, export instant, and the three tables. -/
structure ExportData where
  version : String
  exported_at : Int
  tasks : List TaskRow
  buckets : List BucketRow
  completions : List CompletionRow
deriving DecidableEq, Repr

/-- `Database.export`. -/
def exportDB (s : DBState) (at_ : Int) : ExportData :=
  { version := "1.0.0"
    exported_at := at_
    tasks := s.tasks
    buckets := s.buckets
    completions := s.completions }

/-- Per-table import counters. -/
structure ImportCount where
  imported : Nat
  skipped : Nat
deriving DecidableEq, Repr

/-- The `(tasks, buckets, completions)` import report. -/
structure ImportResult where
  tasks : ImportCount
  buckets : ImportCount
  completions : ImportCount
deriving DecidableEq, Repr

/-- Insert one row, skipping it when its key is already present. -/
def insertRow {α : Type} (key : α → Nat) (table : List α) (cnt : ImportCount)
    (row : α) : List α × ImportCount :=
  if (table.map key).contains (key row) then
    (table, { cnt with skipped := cnt.skipped + 1 })
  else (table ++ [row], { cnt with imported := cnt.imported + 1 })

/-- Fold a table of incoming rows through `insertRow`. -/
def insertAll {α : Type} (key : α → Nat) (table : List α) (rows : List α) :
    List α × ImportCount :=
  rows.foldl (fun st row => insertRow key st.1 st.2 row) (table, ⟨0, 0⟩)

/-- Replace-mode `Database.import`: wipe the store, insert every incoming
row with its exported id. -/
def importReplace (data : ExportData) : DBState × ImportResult :=
  let (tasks, tc) := insertAll (fun t => t.id) [] data.tasks
  let (buckets, bc) := insertAll (fun b => b.id) [] data.buckets
  let (completions, cc) := insertAll (fun c => c.id) [] data.completions
  ({ tasks := tasks, buckets := buckets, completions := completions },
   { tasks := tc, buckets := bc, completions := cc })

/-- Inserting rows with pairwise-distinct keys into an empty table keeps all
of them in order and skips none. -/
theorem insertAll_nodup {α : Type} (key : α → Nat) (rows : List α)
    (h : (rows.map key).Nodup) :
    insertAll key [] rows = (rows, ⟨rows.length, 0⟩) := by
  suffices hgen : ∀ pre cnt, ((pre ++ rows).map key).Nodup →
      rows.foldl (fun st row => insertRow key st.1 st.2 row) (pre, cnt)
        = (pre ++ rows, ⟨cnt.imported + rows.length, cnt.skipped⟩) by
    have := hgen [] ⟨0, 0⟩ (by simpa using h)
    simpa using this
  clear h
  induction rows with
  | nil =>
      intro pre cnt _
      simp
  | cons r rs ih =>
      intro pre cnt hnd
      have hnd' : ((pre.map key) ++ (key r :: rs.map key)).Nodup := by
        simpa using hnd
      rw [List.nodup_append] at hnd'
      have hnm : key r ∉ pre.map key := fun hmem => hnd'.2.2 hmem (by simp)
      have hnotmem : ((pre.map key).contains (key r)) = false := by
        simp only [List.contains, List.elem_eq_mem, decide_eq_false_iff_not]
        exact hnm
      have hstep : insertRow key pre cnt r =
          (pre ++ [r], { imported := cnt.imported + 1
                         skipped := cnt.skipped }) := by
        unfold insertRow
        rw [hnotmem]
        simp
      have hih := ih (pre ++ [r])
        { imported := cnt.imported + 1, skipped := cnt.skipped }
        (by simpa using hnd)
      show rs.foldl (fun st row => insertRow key st.1 st.2 row)
          (insertRow key pre cnt r) = _
      rw [hstep, hih]
      have hlist : (pre ++ [r]) ++ rs = pre ++ r :: rs := by simp
      rw [hlist]
      congr 1
      simp only [List.length_cons]
      congr 1
      omega

/-- C7.  Importing an export in replace mode restores the exact store state:
the same task rows (hence the same dependency references, tags, projects and
bucket memberships), bucket rows and completion rows, with every row imported
and none skipped.  The id-uniqueness hypotheses hold of any store state,
since ids are store-assigned. -/
theorem c7_export_import_roundtrip (s : DBState) (at_ : Int)
    (ht : (s.tasks.map (fun t => t.id)).Nodup)
    (hb : (s.buckets.map (fun b => b.id)).Nodup)
    (hc : (s.completions.map (fun c => c.id)).Nodup) :
    (importReplace (exportDB s at_)).1 = s ∧
    (importReplace (exportDB s at_)).2 =
      { tasks := { imported := s.tasks.length, skipped := 0 }
        buckets := { imported := s.buckets.length, skipped := 0 }
        completions := { imported := s.completions.length, skipped := 0 } } := by
  unfold importReplace exportDB
  rw [insertAll_nodup _ _ ht, insertAll_nodup _ _ hb, insertAll_nodup _ _ hc]
  exact ⟨rfl, rfl⟩

/-- The store of the round-trip test: a bucket, a tagged task in it, a second
task depending on the first, and a completion row for the first. -/
def roundTripDemo : DBState :=
  { tasks :=
      [{ id := 1, title := "Task 1", project := some "proj1"
         bucket_id := some 1, tags := ["tag1", "tag2"]
         estimate_minutes := some 60, curve_config := .linear 0 604800000
         status := .completed },
       { id := 2, title := "Task 2", dependencies := [1]
         curve_config := .blocked [1] (.linear 0 604800000)
         status := .open_ }]
    buckets := [{ id := 1, name := "TestBucket", btype := "project" }]
    completions := [{ id := 1, task_id := 1, completed_at := 3600000
                      scheduled_minutes := some 60, day_of_week := 4
                      hour_of_day := 1 }] }

/-- Witness for C7 at the round-trip test state. -/
theorem c7_export_import_roundtrip_witness :
    (importReplace (exportDB roundTripDemo 999)).1 = roundTripDemo :=
  (c7_export_import_roundtrip roundTripDemo 999 (by decide) (by decide)
    (by decide)).1

/-! ## The task store, its dependency cascades, and invariant I3 (C4, C8)

The status-relevant projection of the store: each task's id, status,
dependency list and whether it recurs.  The other task fields (title, tags,
dates, curve config, …) are carried unchanged by every operation below and
do not influence statuses; the completion row inserted by `complete` and the
`next_due_at` computed through `calculateNextDue` live in the `DBState` and
recurrence models above. -/

/-- The status-relevant view of a stored task. -/
structure STask where
  id : Nat
  status : TStatus
  deps : List Nat
  recurring : Bool
deriving DecidableEq, Repr

/-- The task table. -/
abbrev Store := List STask

/-- `taskService.get` restricted to the modelled fields. -/
def findTask (s : Store) (i : Nat) : Option STask :=
  s.find? (fun t => t.id == i)

/-- Whether task `i` currently has status Completed (`task.status ===
TaskStatus.COMPLETED`; a missing task is not completed). -/
def isCompletedB (s : Store) (i : Nat) : Bool :=
  match findTask s i with
  | some t => t.status == .completed
  | none => false

/-- `allDependenciesComplete` (src/docs/08-dependencies.md lines 106-125). -/
def allDepsComplete (s : Store) (deps : List Nat) : Bool :=
  deps.all (isCompletedB s)

/-- Rewrite one task's record in place (`db.updateTask`-style single-row
write). -/
def mapTask (s : Store) (i : Nat) (f : STask → STask) : Store :=
  s.map (fun t => if t.id == i then f t else t)

/-- Write one task's status. -/
def setStatus (s : Store) (i : Nat) (st : TStatus) : Store :=
  mapTask s i (fun t => { t with status := st })

/-- `taskService.getDependents`: the tasks listing `i` among their
dependencies. -/
def getDependents (s : Store) (i : Nat) : List STask :=
  s.filter (fun t => t.deps.contains i)

/-- `updateDependencyStatus` (src/docs/08-dependencies.md lines 195-227): run
after a create or update, it rewrites the target's status from its
dependencies — no dependencies: Blocked becomes Open; some dependency
incomplete: anything not Blocked becomes Blocked; all complete: Blocked
becomes Open. -/
def updateDependencyStatus (s : Store) (i : Nat) : Store :=
  match findTask s i with
  | none => s
  | some t =>
      if t.deps.isEmpty then
        (if t.status == .blocked then setStatus s i .open_ else s)
      else if !(allDepsComplete s t.deps) then
        (if !(t.status == .blocked) then setStatus s i .blocked else s)
      else
        (if t.status == .blocked then setStatus s i .open_ else s)

/-- `onTaskComplete` (src/docs/08-dependencies.md lines 168-190): for every
dependent of the completed task, if it is Blocked and its dependencies are
now all complete, set it Open.  The dependent records (and the statuses the
`if` inspects) are the snapshot taken before the loop; the completion checks
read the evolving store, as the service calls do. -/
def onTaskComplete (s : Store) (i : Nat) : Store :=
  (getDependents s i).foldl
    (fun acc dep =>
      if dep.status == .blocked && allDepsComplete acc dep.deps then
        setStatus acc dep.id .open_
      else acc)
    s

/-- The BFS of `hasCircularDependency` (src/docs/08-dependencies.md lines
50-81), with explicit fuel standing in for the unbounded `while` loop; the
wrapper passes enough fuel for every reachable edge, so the fuel never runs
out on the inputs the service produces. -/
def bfsCycle (allTasks : Store) (taskId : Nat) :
    Nat → List Nat → List Nat → Bool
  | _, [], _ => false
  | 0, _ :: _, _ => false
  | fuel + 1, current :: queue, visited =>
      if current == taskId then true
      else if visited.contains current then bfsCycle allTasks taskId fuel queue visited
      else
        let moreDeps :=
          match findTask allTasks current with
          | some t => t.deps
          | none => []
        bfsCycle allTasks taskId fuel (queue ++ moreDeps) (current :: visited)

/-- `hasCircularDependency`. -/
def hasCircularDependency (taskId : Nat) (dependencies : List Nat)
    (allTasks : Store) : Bool :=
  let fuel := allTasks.foldl (fun n t => n + t.deps.length) 0
    + allTasks.length + dependencies.length + 1
  bfsCycle allTasks taskId fuel dependencies []

/-- `validateDependencies` (src/docs/08-dependencies.md lines 31-48): every
proposed dependency must exist, and the proposal must not close a cycle
(a self-dependency is caught by the BFS at its first step). -/
def validateDependencies (taskId : Nat) (proposedDeps : List Nat)
    (allTasks : Store) : Except String Unit :=
  if proposedDeps.any (fun d => (findTask allTasks d).isNone) then
    .error "Dependency task not found"
  else if hasCircularDependency taskId proposedDeps allTasks then
    .error "Circular dependency detected"
  else .ok ()

/-- The store-assigned dense id: one more than the largest id in use. -/
def nextId (s : Store) : Nat := s.foldl (fun m t => max m t.id) 0 + 1

/-- The single-row write an update performs: replace the dependency list
and/or the status. -/
def updateWrite (s : Store) (i : Nat) (nd : Option (List Nat))
    (ns : Option TStatus) : Store :=
  mapTask s i (fun u =>
    { u with deps := nd.getD u.deps, status := ns.getD u.status })

/-- Run `updateDependencyStatus` over the dependents of `i`. -/
def cascadeDependents (x : Store) (i : Nat) : Store :=
  (getDependents x i).foldl (fun acc d => updateDependencyStatus acc d.id) x

/-- The cascade after a write to task `i`: repair `i` itself, then — its
status may have changed — its dependents (spec section 4.4). -/
def cascadeAround (s : Store) (i : Nat) : Store :=
  cascadeDependents (updateDependencyStatus s i) i

/-- Remove row `i` and drop the freed reference from every dependency
list. -/
def stripTask (s : Store) (i : Nat) : Store :=
  (s.filter (fun t => !(t.id == i))).map
    (fun t => { t with deps := t.deps.filter (fun d => !(d == i)) })

/-- Task creation (spec lifecycle; the doc's `updateDependencyStatus` section
is titled "When Task Created/Updated" and yields the same initial status):
validate the dependencies, then insert Open — or Blocked when a dependency is
incomplete. -/
def createTask (s : Store) (deps : List Nat) (isRecurring : Bool) :
    Except String Store :=
  match validateDependencies (nextId s) deps s with
  | .error e => .error e
  | .ok _ =>
      .ok (s ++ [{ id := nextId s
                   status := if !deps.isEmpty && !(allDepsComplete s deps)
                     then .blocked else .open_
                   deps := deps
                   recurring := isRecurring }])

/-- Task update: validate a dependency change, refuse to mark a recurring
task Completed (modelled from the spec: invariant I4 is enforced by the
services), write the fields, then run the cascade on the task and — since its
own status may have changed — on its dependents (spec section 4.4: the
cascade runs after any change to dependencies or dependency statuses). -/
def updateTask (s : Store) (i : Nat) (newDeps : Option (List Nat))
    (newStatus : Option TStatus) : Except String Store :=
  match findTask s i with
  | none => .error "Task not found"
  | some t =>
      match (match newDeps with
             | some ds => validateDependencies i ds s
             | none => .ok ()) with
      | .error e => .error e
      | .ok _ =>
          if t.recurring && (newStatus == some .completed) then
            .error "Validation: a recurring task never transitions to Completed"
          else
            .ok (cascadeAround (updateWrite s i newDeps newStatus) i)

/-- `complete` (spec section 4.6; status writes per `completeRecurringTask`,
src/docs/07-recurrence.md lines 121-162): record the completion, set the task
Open (recurring) or Completed (one-shot), then run `onTaskComplete` in the
same transaction. -/
def completeTask (s : Store) (i : Nat) : Except String Store :=
  match findTask s i with
  | none => .error "Task not found"
  | some t =>
      .ok (onTaskComplete
        (setStatus s i (if t.recurring then .open_ else .completed)) i)

/-- `reopen` (spec section 4.6): set the task back to Open, then re-run the
cascade — on the task itself (restoring Blocked if its dependencies warrant
it) and, its status having changed, on its dependents (spec section 4.4).
Modelled from the spec: the reopen service code is not under src/. -/
def reopenTask (s : Store) (i : Nat) : Except String Store :=
  match findTask s i with
  | none => .error "Task not found"
  | some _ => .ok (cascadeAround (setStatus s i .open_) i)

/-- Delete errors: the missing-task case and the `HasDependents` condition
with the referencing id list. -/
inductive DeleteErr where
  | notFound
  | hasDependents (ids : List Nat)
deriving DecidableEq, Repr

/-- Delete (src/src/cli/commands/task.ts lines 426-458 for the guard; the
forced path modelled from spec I7/section 4.4): without `force`, a referenced
task cannot be deleted and the error carries the dependents' ids; otherwise
the row is removed, the freed dependents drop the reference, and the cascade
re-runs on them. -/
def deleteTask (s : Store) (i : Nat) (force : Bool) : Except DeleteErr Store :=
  match findTask s i with
  | none => .error .notFound
  | some _ =>
      if !(getDependents s i).isEmpty && !force then
        .error (.hasDependents ((getDependents s i).map (fun d => d.id)))
      else
        .ok (((getDependents s i).map (fun d => d.id)).foldl
          (fun acc d => updateDependencyStatus acc d) (stripTask s i))

/-- The five mutating operations of the claim. -/
inductive Op where
  | create (deps : List Nat) (isRecurring : Bool)
  | update (i : Nat) (newDeps : Option (List Nat)) (newStatus : Option TStatus)
  | complete (i : Nat)
  | reopen (i : Nat)
  | delete (i : Nat) (force : Bool)
deriving DecidableEq, Repr

/-- Run an operation; a validation error rolls the transaction back, leaving
the store unchanged. -/
def applyOp (s : Store) : Op → Store
  | .create deps r => ((createTask s deps r).toOption).getD s
  | .update i nd ns => ((updateTask s i nd ns).toOption).getD s
  | .complete i => ((completeTask s i).toOption).getD s
  | .reopen i => ((reopenTask s i).toOption).getD s
  | .delete i f => ((deleteTask s i f).toOption).getD s

/-! ### The invariant -/

/-- Duplicate-free id list. -/
def nodupB : List Nat → Bool
  | [] => true
  | x :: xs => !(xs.contains x) && nodupB xs

/-- I3 as a per-task check: Blocked exactly when there is a dependency and
one of them is not Completed. -/
def taskIffB (s : Store) (t : STask) : Bool :=
  (t.status == .blocked) == (!t.deps.isEmpty && !(allDepsComplete s t.deps))

/-- I4 as a per-task check: a recurring task is never Completed. -/
def taskI4B (t : STask) : Bool := !(t.recurring && t.status == .completed)

/-- I1 as a per-task check: dependencies exist and are not the task itself. -/
def taskWfB (s : Store) (t : STask) : Bool :=
  t.deps.all (fun d => (findTask s d).isSome && !(d == t.id))

/-- The store invariant: unique ids, and I1 ∧ I3 ∧ I4 for every task. -/
def storeInvB (s : Store) : Bool :=
  nodupB (s.map (fun t => t.id)) &&
  s.all (fun t => taskWfB s t && taskIffB s t && taskI4B t)

/-- The invariant as a proposition. -/
def StoreInv (s : Store) : Prop := storeInvB s = true

/-- The provisos under which the amended claim quantifies the operations:
`complete` is only invoked on tasks whose dependencies are all Completed
(completing a Blocked task directly is what the counterexample exhibits);
`update` is not applied to a Completed task (`reopen` is the path back to
Open); and `reopen` is only invoked when no Completed task still depends on
the reopened one (otherwise that dependent would have to leave Completed to
restore I3). -/
def OpAllowed (s : Store) : Op → Prop
  | .complete i => ∀ t, findTask s i = some t → allDepsComplete s t.deps = true
  | .update i _ _ => ∀ t, findTask s i = some t → t.status ≠ .completed
  | .reopen i => ∀ t ∈ s, t.deps.contains i = true → t.status ≠ .completed
  | _ => True

/-! ### Basic store lemmas -/

/-- The status a lookup sees. -/
def statusOf (s : Store) (j : Nat) : Option TStatus :=
  (findTask s j).map (fun t => t.status)

theorem findTask_id {s : Store} {j : Nat} {t : STask}
    (h : findTask s j = some t) : t.id = j := by
  have := List.find?_some h
  simpa using this

theorem findTask_mem {s : Store} {j : Nat} {t : STask}
    (h : findTask s j = some t) : t ∈ s :=
  List.mem_of_find?_eq_some h

theorem findTask_mapTask (s : Store) (i : Nat) (f : STask → STask)
    (hf : ∀ t, (f t).id = t.id) (j : Nat) :
    findTask (mapTask s i f) j =
      (findTask s j).map (fun t => if t.id == i then f t else t) := by
  unfold findTask mapTask
  rw [List.find?_map]
  have harg : ((fun t : STask => t.id == j) ∘
      fun t => if (t.id == i) = true then f t else t)
      = fun t : STask => t.id == j := by
    funext t
    by_cases h : (t.id == i) = true
    · simp only [Function.comp_apply, if_pos h, hf]
    · simp only [Function.comp_apply, if_neg h]
  rw [harg]

theorem findTask_mapTask_ne (s : Store) (i : Nat) (f : STask → STask)
    (hf : ∀ t, (f t).id = t.id) {j : Nat} (hne : j ≠ i) :
    findTask (mapTask s i f) j = findTask s j := by
  rw [findTask_mapTask s i f hf j]
  cases h : findTask s j with
  | none => rfl
  | some t =>
      have hid : t.id = j := findTask_id h
      simp [hid, hne]

theorem findTask_mapTask_self (s : Store) (i : Nat) (f : STask → STask)
    (hf : ∀ t, (f t).id = t.id) :
    findTask (mapTask s i f) i = (findTask s i).map f := by
  rw [findTask_mapTask s i f hf i]
  cases h : findTask s i with
  | none => rfl
  | some t =>
      have hid : t.id = i := findTask_id h
      simp [hid]

theorem ids_mapTask (s : Store) (i : Nat) (f : STask → STask)
    (hf : ∀ t, (f t).id = t.id) :
    (mapTask s i f).map (fun t => t.id) = s.map (fun t => t.id) := by
  unfold mapTask
  rw [List.map_map]
  congr 1
  funext t
  simp only [Function.comp_apply]
  by_cases h : (t.id == i) = true
  · simp only [if_pos h, hf]
  · simp only [if_neg h]

theorem setStatus_id (st : TStatus) :
    ∀ t : STask, (({ t with status := st } : STask)).id = t.id :=
  fun _ => rfl

theorem findTask_setStatus_ne (s : Store) (i : Nat) (st : TStatus) {j : Nat}
    (hne : j ≠ i) : findTask (setStatus s i st) j = findTask s j :=
  findTask_mapTask_ne s i _ (setStatus_id st) hne

theorem findTask_setStatus_self (s : Store) (i : Nat) (st : TStatus) :
    findTask (setStatus s i st) i =
      (findTask s i).map (fun t => { t with status := st }) :=
  findTask_mapTask_self s i _ (setStatus_id st)

theorem depsOf_mapTask_status (s : Store) (i : Nat) (st : TStatus) (j : Nat) :
    (findTask (setStatus s i st) j).map (fun t => t.deps)
      = (findTask s j).map (fun t => t.deps) := by
  by_cases h : j = i
  · subst h
    rw [findTask_setStatus_self]
    cases findTask s j <;> rfl
  · rw [findTask_setStatus_ne s i st h]

theorem recurringOf_setStatus (s : Store) (i : Nat) (st : TStatus) (j : Nat) :
    (findTask (setStatus s i st) j).map (fun t => t.recurring)
      = (findTask s j).map (fun t => t.recurring) := by
  by_cases h : j = i
  · subst h
    rw [findTask_setStatus_self]
    cases findTask s j <;> rfl
  · rw [findTask_setStatus_ne s i st h]

theorem isSome_setStatus (s : Store) (i : Nat) (st : TStatus) (j : Nat) :
    (findTask (setStatus s i st) j).isSome = (findTask s j).isSome := by
  by_cases h : j = i
  · subst h
    rw [findTask_setStatus_self]
    cases findTask s j <;> rfl
  · rw [findTask_setStatus_ne s i st h]

theorem isCompletedB_setStatus_ne (s : Store) (i : Nat) (st : TStatus)
    {j : Nat} (hne : j ≠ i) :
    isCompletedB (setStatus s i st) j = isCompletedB s j := by
  unfold isCompletedB
  rw [findTask_setStatus_ne s i st hne]

theorem isCompletedB_setStatus_self (s : Store) (i : Nat) (st : TStatus) :
    isCompletedB (setStatus s i st) i =
      ((findTask s i).isSome && (st == .completed)) := by
  unfold isCompletedB
  rw [findTask_setStatus_self]
  cases findTask s i <;> simp

theorem allDepsComplete_congr {s s' : Store} (ds : List Nat)
    (h : ∀ d ∈ ds, isCompletedB s' d = isCompletedB s d) :
    allDepsComplete s' ds = allDepsComplete s ds := by
  unfold allDepsComplete
  induction ds with
  | nil => rfl
  | cons d ds ih =>
      simp only [List.all_cons]
      rw [h d (by simp), ih (fun x hx => h x (by simp [hx]))]

/-! ### `updateDependencyStatus` lemmas -/

/-- The status `updateDependencyStatus` leaves on its target. -/
def repairedStatus (s : Store) (t : STask) : TStatus :=
  if t.deps.isEmpty then (if t.status == .blocked then .open_ else t.status)
  else if !(allDepsComplete s t.deps) then
    (if !(t.status == .blocked) then .blocked else t.status)
  else (if t.status == .blocked then .open_ else t.status)

theorem upd_of_none {s : Store} {i : Nat} (h : findTask s i = none) :
    updateDependencyStatus s i = s := by
  unfold updateDependencyStatus
  rw [h]

theorem upd_of_some {s : Store} {i : Nat} {t : STask}
    (h : findTask s i = some t) :
    updateDependencyStatus s i =
      (if t.deps.isEmpty then
        (if t.status == .blocked then setStatus s i .open_ else s)
      else if !(allDepsComplete s t.deps) then
        (if !(t.status == .blocked) then setStatus s i .blocked else s)
      else
        (if t.status == .blocked then setStatus s i .open_ else s)) := by
  unfold updateDependencyStatus
  rw [h]

theorem upd_find_ne (s : Store) (i : Nat) {j : Nat} (hne : j ≠ i) :
    findTask (updateDependencyStatus s i) j = findTask s j := by
  cases h : findTask s i with
  | none => rw [upd_of_none h]
  | some t =>
      rw [upd_of_some h]
      split_ifs <;>
        first
        | rfl
        | exact findTask_setStatus_ne s i _ hne

theorem upd_find_self {s : Store} {i : Nat} {t : STask}
    (h : findTask s i = some t) :
    findTask (updateDependencyStatus s i) i =
      some { t with status := repairedStatus s t } := by
  rw [upd_of_some h]
  unfold repairedStatus
  split_ifs <;> simp [findTask_setStatus_self, h]

theorem upd_deps (s : Store) (i j : Nat) :
    (findTask (updateDependencyStatus s i) j).map (fun t => t.deps)
      = (findTask s j).map (fun t => t.deps) := by
  cases h : findTask s i with
  | none => rw [upd_of_none h]
  | some t =>
      rw [upd_of_some h]
      split_ifs <;>
        first
        | rfl
        | exact depsOf_mapTask_status s i _ j

theorem upd_recurring (s : Store) (i j : Nat) :
    (findTask (updateDependencyStatus s i) j).map (fun t => t.recurring)
      = (findTask s j).map (fun t => t.recurring) := by
  cases h : findTask s i with
  | none => rw [upd_of_none h]
  | some t =>
      rw [upd_of_some h]
      split_ifs <;>
        first
        | rfl
        | exact recurringOf_setStatus s i _ j

theorem upd_isSome (s : Store) (i j : Nat) :
    (findTask (updateDependencyStatus s i) j).isSome
      = (findTask s j).isSome := by
  cases h : findTask s i with
  | none => rw [upd_of_none h]
  | some t =>
      rw [upd_of_some h]
      split_ifs <;>
        first
        | rfl
        | exact isSome_setStatus s i _ j

theorem upd_ids (s : Store) (i : Nat) :
    (updateDependencyStatus s i).map (fun t => t.id)
      = s.map (fun t => t.id) := by
  cases h : findTask s i with
  | none => rw [upd_of_none h]
  | some t =>
      rw [upd_of_some h]
      split_ifs <;>
        first
        | rfl
        | exact ids_mapTask s i _ (setStatus_id _)

theorem repaired_completed {s : Store} {t : STask}
    (h : repairedStatus s t = .completed) : t.status = .completed := by
  unfold repairedStatus at h
  split_ifs at h <;> simp_all

theorem repaired_iff (s : Store) (t : STask) :
    ((repairedStatus s t == TStatus.blocked)
      == (!t.deps.isEmpty && !(allDepsComplete s t.deps))) = true := by
  unfold repairedStatus
  split_ifs <;> simp_all

theorem upd_isCompleted {s : Store} {i : Nat}
    (hnoflip : ∀ t, findTask s i = some t → t.status = .completed →
      t.deps.isEmpty = true ∨ allDepsComplete s t.deps = true) (j : Nat) :
    isCompletedB (updateDependencyStatus s i) j = isCompletedB s j := by
  by_cases hji : j = i
  · subst hji
    cases h : findTask s j with
    | none => rw [upd_of_none h]
    | some t =>
        unfold isCompletedB
        rw [upd_find_self h, h]
        simp only
        by_cases hc : t.status = .completed
        · have hrep : repairedStatus s t = t.status := by
            rcases hnoflip t h hc with hemp | hall
            · unfold repairedStatus
              rw [if_pos hemp]
              have : (t.status == TStatus.blocked) = false := by
                simp [hc]
              simp [this]
            · unfold repairedStatus
              by_cases hemp : t.deps.isEmpty = true
              · have : (t.status == TStatus.blocked) = false := by
                  simp [hc]
                simp [hemp, this]
              · have : (t.status == TStatus.blocked) = false := by
                  simp [hc]
                simp [hemp, hall, this]
          rw [hrep]
        · have h1 : (t.status == TStatus.completed) = false := by
            simp [hc]
          have h2 : (repairedStatus s t == TStatus.completed) = false := by
            by_cases hr : repairedStatus s t = .completed
            · exact absurd (repaired_completed hr) hc
            · simp [hr]
          rw [h1, h2]
  · unfold isCompletedB
    rw [upd_find_ne s i hji]

/-! ### Invariant bridge lemmas -/

theorem nodupB_iff (l : List Nat) : nodupB l = true ↔ l.Nodup := by
  induction l with
  | nil => simp [nodupB]
  | cons a l ih =>
      simp [nodupB, ih, List.nodup_cons, List.contains]

theorem mem_findTask {s : Store} (hnd : (s.map (fun t => t.id)).Nodup)
    {t : STask} (ht : t ∈ s) : findTask s t.id = some t := by
  induction s with
  | nil => cases ht
  | cons a s ih =>
      rw [List.map_cons, List.nodup_cons] at hnd
      rcases List.mem_cons.mp ht with heq | hmem
      · subst heq
        unfold findTask
        simp [List.find?]
      · have hne : a.id ≠ t.id := by
          intro hcontra
          exact hnd.1 (hcontra ▸ List.mem_map_of_mem (fun u => u.id) hmem)
        unfold findTask
        rw [List.find?_cons_of_neg _ (by simp [hne])]
        exact ih hnd.2 hmem

theorem storeInv_nodup {s : Store} (h : StoreInv s) :
    (s.map (fun t => t.id)).Nodup := by
  unfold StoreInv storeInvB at h
  rw [Bool.and_eq_true] at h
  exact (nodupB_iff _).mp h.1

theorem storeInv_find {s : Store} (h : StoreInv s) {j : Nat} {t : STask}
    (hf : findTask s j = some t) :
    taskWfB s t = true ∧ taskIffB s t = true ∧ taskI4B t = true := by
  unfold StoreInv storeInvB at h
  rw [Bool.and_eq_true] at h
  have hall := List.all_eq_true.mp h.2 t (findTask_mem hf)
  simp only [Bool.and_eq_true] at hall
  exact ⟨hall.1.1, hall.1.2, hall.2⟩

theorem storeInv_of_find {s : Store} (hnd : (s.map (fun t => t.id)).Nodup)
    (h : ∀ j t, findTask s j = some t →
      taskWfB s t = true ∧ taskIffB s t = true ∧ taskI4B t = true) :
    StoreInv s := by
  unfold StoreInv storeInvB
  rw [Bool.and_eq_true]
  refine ⟨(nodupB_iff _).mpr hnd, List.all_eq_true.mpr (fun t ht => ?_)⟩
  have := h t.id t (mem_findTask hnd ht)
  simp [Bool.and_eq_true, this.1, this.2.1, this.2.2]

theorem taskWf_spec {s : Store} {t : STask} (h : taskWfB s t = true) :
    ∀ d ∈ t.deps, (findTask s d).isSome = true ∧ d ≠ t.id := by
  unfold taskWfB at h
  intro d hd
  have := List.all_eq_true.mp h d hd
  rw [Bool.and_eq_true] at this
  refine ⟨this.1, ?_⟩
  have := this.2
  simpa using this

theorem foldl_max_le_init (s : Store) (a : Nat) :
    a ≤ s.foldl (fun m u => max m u.id) a := by
  induction s generalizing a with
  | nil => exact le_refl a
  | cons u s ih =>
      calc a ≤ max a u.id := le_max_left a u.id
      _ ≤ s.foldl (fun m u => max m u.id) (max a u.id) := ih (max a u.id)

theorem id_le_foldl_max {s : Store} {t : STask} (ht : t ∈ s) (a : Nat) :
    t.id ≤ s.foldl (fun m u => max m u.id) a := by
  induction s generalizing a with
  | nil => cases ht
  | cons u s ih =>
      rcases List.mem_cons.mp ht with heq | hmem
      · subst heq
        calc t.id ≤ max a t.id := le_max_right a t.id
        _ ≤ s.foldl (fun m u => max m u.id) (max a t.id) :=
          foldl_max_le_init s (max a t.id)
      · exact ih hmem (max a u.id)

theorem id_lt_nextId {s : Store} {t : STask} (ht : t ∈ s) : t.id < nextId s := by
  unfold nextId
  have := id_le_foldl_max ht 0
  omega

theorem findTask_nextId (s : Store) : findTask s (nextId s) = none := by
  cases h : findTask s (nextId s) with
  | none => rfl
  | some t =>
      have h1 : t.id = nextId s := findTask_id h
      have h2 : t.id < nextId s := id_lt_nextId (findTask_mem h)
      omega

theorem findTask_append_left {s : Store} {j : Nat} {u : STask} (t : STask)
    (h : findTask s j = some u) : findTask (s ++ [t]) j = some u := by
  unfold findTask at h ⊢
  rw [List.find?_append, h]
  rfl

theorem findTask_append_right {s : Store} (t : STask)
    (h : findTask s t.id = none) : findTask (s ++ [t]) t.id = some t := by
  unfold findTask at h ⊢
  rw [List.find?_append, h]
  simp [List.find?]

theorem findTask_append_cases (s : Store) (t : STask) (j : Nat) :
    findTask (s ++ [t]) j = findTask s j ∨
    (findTask s j = none ∧ t.id = j ∧ findTask (s ++ [t]) j = some t) := by
  cases h : findTask s j with
  | some u => exact Or.inl (findTask_append_left t h)
  | none =>
      by_cases hid : (t.id == j) = true
      · right
        have hid' : t.id = j := by simpa using hid
        refine ⟨rfl, hid', ?_⟩
        subst hid'
        exact findTask_append_right t h
      · left
        unfold findTask at h ⊢
        rw [List.find?_append, h]
        simp [List.find?, hid]

/-! ### The repair fold

Both `update` and `reopen` finish by running `updateDependencyStatus` over a
list of dependent ids; `deleteTask` does the same over the freed dependents.
Provided no listed task is Completed-with-incomplete-dependencies (which
would make the repair un-complete it), the fold changes only statuses of the
listed tasks, never changes which tasks count as Completed, and leaves every
listed task satisfying I3. -/

/-- Run the cascade over a list of ids. -/
def repairRun (L : List Nat) (x : Store) : Store :=
  L.foldl (fun acc j => updateDependencyStatus acc j) x

theorem repairRun_spec (L : List Nat) (x : Store) (hnd : L.Nodup)
    (hnoflip : ∀ k ∈ L, ∀ t, findTask x k = some t →
      t.status = .completed →
      t.deps.isEmpty = true ∨ allDepsComplete x t.deps = true) :
    (∀ j, j ∉ L → findTask (repairRun L x) j = findTask x j) ∧
    (∀ j, isCompletedB (repairRun L x) j = isCompletedB x j) ∧
    (∀ j, (findTask (repairRun L x) j).map (fun t => t.deps)
      = (findTask x j).map (fun t => t.deps)) ∧
    (∀ j, (findTask (repairRun L x) j).map (fun t => t.recurring)
      = (findTask x j).map (fun t => t.recurring)) ∧
    (∀ j, (findTask (repairRun L x) j).isSome = (findTask x j).isSome) ∧
    ((repairRun L x).map (fun t => t.id) = x.map (fun t => t.id)) ∧
    (∀ k ∈ L, ∀ t', findTask (repairRun L x) k = some t' →
      taskIffB (repairRun L x) t' = true) ∧
    (∀ j t t', findTask x j = some t → findTask (repairRun L x) j = some t' →
      (t'.status == TStatus.completed) = (t.status == TStatus.completed)) := by
  induction L generalizing x with
  | nil =>
      refine ⟨fun j _ => rfl, fun j => rfl, fun j => rfl, fun j => rfl,
        fun j => rfl, rfl, fun k hk => absurd hk (List.not_mem_nil k), ?_⟩
      intro j t t' h1 h2
      have h2' : findTask x j = some t' := h2
      rw [h1] at h2'
      cases h2'
      rfl
  | cons k L ih =>
      rw [List.nodup_cons] at hnd
      have hF : ∀ j, isCompletedB (updateDependencyStatus x k) j
          = isCompletedB x j :=
        upd_isCompleted (fun t hf hc => hnoflip k (by simp) t hf hc)
      have hnoflip' : ∀ m ∈ L, ∀ t,
          findTask (updateDependencyStatus x k) m = some t →
          t.status = .completed →
          t.deps.isEmpty = true ∨
            allDepsComplete (updateDependencyStatus x k) t.deps = true := by
        intro m hm t hf hc
        have hne : m ≠ k := fun h => hnd.1 (h ▸ hm)
        rw [upd_find_ne x k hne] at hf
        rcases hnoflip m (by simp [hm]) t hf hc with h | h
        · exact Or.inl h
        · refine Or.inr ?_
          rw [allDepsComplete_congr t.deps (fun d _ => hF d)]
          exact h
      obtain ⟨c1, c2, c3, c4, c5, c6, c7, c8⟩ :=
        ih (updateDependencyStatus x k) hnd.2 hnoflip'
      have hrun : repairRun (k :: L) x
          = repairRun L (updateDependencyStatus x k) := rfl
      rw [hrun]
      have chead : ∀ t', findTask (repairRun L (updateDependencyStatus x k)) k
          = some t' →
          taskIffB (repairRun L (updateDependencyStatus x k)) t' = true := by
        intro t' hf'
        rw [c1 k hnd.1] at hf'
        cases hx : findTask x k with
        | none =>
            rw [upd_of_none hx, hx] at hf'
            exact Option.noConfusion hf'
        | some t =>
            rw [upd_find_self hx] at hf'
            have ht' : t' = { t with status := repairedStatus x t } := by
              cases hf'
              rfl
            subst ht'
            unfold taskIffB
            simp only
            have hall : allDepsComplete
                (repairRun L (updateDependencyStatus x k)) t.deps
                = allDepsComplete x t.deps := by
              rw [allDepsComplete_congr t.deps (fun d _ => c2 d),
                allDepsComplete_congr t.deps (fun d _ => hF d)]
            rw [hall]
            exact repaired_iff x t
      refine ⟨?_, ?_, ?_, ?_, ?_, ?_, ?_, ?_⟩
      · intro j hj
        have hjk : j ≠ k := fun h => hj (h ▸ List.mem_cons_self k L)
        have hjL : j ∉ L := fun h => hj (List.mem_cons_of_mem k h)
        rw [c1 j hjL, upd_find_ne x k hjk]
      · intro j
        rw [c2 j, hF j]
      · intro j
        rw [c3 j, upd_deps x k j]
      · intro j
        rw [c4 j, upd_recurring x k j]
      · intro j
        rw [c5 j, upd_isSome x k j]
      · rw [c6, upd_ids x k]
      · intro m hm t' hf'
        rcases List.mem_cons.mp hm with heq | hmem
        · rw [heq] at hf'
          exact chead t' hf'
        · exact c7 m hmem t' hf'
      · intro j t t' h1 h2
        cases hx : findTask (updateDependencyStatus x k) j with
        | none =>
            have hs := c5 j
            rw [h2, hx] at hs
            exact Bool.noConfusion hs
        | some u =>
            have step1 := c8 j u t' hx h2
            rw [step1]
            by_cases hjk : j = k
            · rw [hjk] at h1 hx
              rw [upd_find_self h1] at hx
              have hu : u = { t with status := repairedStatus x t } := by
                cases hx
                rfl
              subst hu
              simp only
              by_cases hc : t.status = .completed
              · rcases hnoflip k (by simp) t h1 hc with hemp | hall
                · unfold repairedStatus
                  have hnb : (t.status == TStatus.blocked) = false := by
                    simp [hc]
                  simp [hemp, hnb]
                · unfold repairedStatus
                  have hnb : (t.status == TStatus.blocked) = false := by
                    simp [hc]
                  by_cases hemp : t.deps.isEmpty = true
                  · simp [hemp, hnb]
                  · simp [hemp, hall, hnb]
              · have hr : repairedStatus x t ≠ .completed :=
                  fun h => hc (repaired_completed h)
                simp [hr, hc]
            · rw [upd_find_ne x k hjk, h1] at hx
              cases hx
              rfl

/-! ### The completion cascade fold -/

theorem getDependents_nodup {s : Store}
    (hnd : (s.map (fun t => t.id)).Nodup) (i : Nat) :
    ((getDependents s i).map (fun t => t.id)).Nodup := by
  unfold getDependents
  exact hnd.sublist (List.Sublist.map _ (List.filter_sublist s))

theorem mem_getDependents {s : Store} {i : Nat} {t : STask} :
    t ∈ getDependents s i ↔ t ∈ s ∧ t.deps.contains i = true := by
  unfold getDependents
  simp [List.mem_filter]

theorem cascadeRun_spec (L : List STask) (x : Store)
    (hnd : (L.map (fun d => d.id)).Nodup)
    (hfind : ∀ dep ∈ L, findTask x dep.id = some dep) :
    (∀ j, (∀ dep ∈ L, dep.id ≠ j) →
      findTask (L.foldl (fun acc dep =>
        if dep.status == .blocked && allDepsComplete acc dep.deps then
          setStatus acc dep.id .open_
        else acc) x) j = findTask x j) ∧
    (∀ j, isCompletedB (L.foldl (fun acc dep =>
        if dep.status == .blocked && allDepsComplete acc dep.deps then
          setStatus acc dep.id .open_
        else acc) x) j = isCompletedB x j) ∧
    (∀ j, (findTask (L.foldl (fun acc dep =>
        if dep.status == .blocked && allDepsComplete acc dep.deps then
          setStatus acc dep.id .open_
        else acc) x) j).map (fun t => t.deps)
      = (findTask x j).map (fun t => t.deps)) ∧
    (∀ j, (findTask (L.foldl (fun acc dep =>
        if dep.status == .blocked && allDepsComplete acc dep.deps then
          setStatus acc dep.id .open_
        else acc) x) j).map (fun t => t.recurring)
      = (findTask x j).map (fun t => t.recurring)) ∧
    (∀ j, (findTask (L.foldl (fun acc dep =>
        if dep.status == .blocked && allDepsComplete acc dep.deps then
          setStatus acc dep.id .open_
        else acc) x) j).isSome = (findTask x j).isSome) ∧
    ((L.foldl (fun acc dep =>
        if dep.status == .blocked && allDepsComplete acc dep.deps then
          setStatus acc dep.id .open_
        else acc) x).map (fun t => t.id) = x.map (fun t => t.id)) ∧
    (∀ dep ∈ L, findTask (L.foldl (fun acc dep =>
        if dep.status == .blocked && allDepsComplete acc dep.deps then
          setStatus acc dep.id .open_
        else acc) x) dep.id =
      some (if dep.status == .blocked && allDepsComplete x dep.deps then
        { dep with status := TStatus.open_ } else dep)) := by
  induction L generalizing x with
  | nil =>
      exact ⟨fun j _ => rfl, fun j => rfl, fun j => rfl, fun j => rfl,
        fun j => rfl, rfl, fun dep hdep => absurd hdep (List.not_mem_nil dep)⟩
  | cons dep L ih =>
      simp only [List.foldl_cons]
      rw [List.map_cons, List.nodup_cons] at hnd
      have hdepx : findTask x dep.id = some dep := hfind dep (by simp)
      set x1 : Store :=
        (if dep.status == .blocked && allDepsComplete x dep.deps then
          setStatus x dep.id .open_
        else x) with hx1
      have hfind1 : ∀ j, j ≠ dep.id → findTask x1 j = findTask x j := by
        intro j hj
        rw [hx1]
        split_ifs with hc
        · exact findTask_setStatus_ne x dep.id TStatus.open_ hj
        · rfl
      have hself : findTask x1 dep.id =
          some (if dep.status == .blocked && allDepsComplete x dep.deps then
            { dep with status := TStatus.open_ } else dep) := by
        rw [hx1]
        split_ifs with hc
        · rw [findTask_setStatus_self, hdepx]
          rfl
        · rw [hdepx]
      have hcomp1 : ∀ j, isCompletedB x1 j = isCompletedB x j := by
        intro j
        by_cases hj : j = dep.id
        · subst hj
          unfold isCompletedB
          rw [hself, hdepx]
          split_ifs with hc
          · rw [Bool.and_eq_true] at hc
            have hb : dep.status = .blocked := by
              have := hc.1
              simpa using this
            simp [hb]
          · rfl
        · unfold isCompletedB
          rw [hfind1 j hj]
      have hdeps1 : ∀ j, (findTask x1 j).map (fun t => t.deps)
          = (findTask x j).map (fun t => t.deps) := by
        intro j
        by_cases hj : j = dep.id
        · subst hj
          rw [hself, hdepx]
          split_ifs <;> rfl
        · rw [hfind1 j hj]
      have hrec1 : ∀ j, (findTask x1 j).map (fun t => t.recurring)
          = (findTask x j).map (fun t => t.recurring) := by
        intro j
        by_cases hj : j = dep.id
        · subst hj
          rw [hself, hdepx]
          split_ifs <;> rfl
        · rw [hfind1 j hj]
      have hsome1 : ∀ j, (findTask x1 j).isSome = (findTask x j).isSome := by
        intro j
        by_cases hj : j = dep.id
        · subst hj
          rw [hself, hdepx]
          split_ifs <;> rfl
        · rw [hfind1 j hj]
      have hids1 : x1.map (fun t => t.id) = x.map (fun t => t.id) := by
        rw [hx1]
        split_ifs
        · exact ids_mapTask x dep.id _ (setStatus_id _)
        · rfl
      have hfindL : ∀ d ∈ L, findTask x1 d.id = some d := by
        intro d hd
        have hne : d.id ≠ dep.id := by
          intro hcontra
          exact hnd.1 (hcontra ▸ List.mem_map_of_mem (fun t => t.id) hd)
        rw [hfind1 d.id hne]
        exact hfind d (by simp [hd])
      obtain ⟨c1, c2, c3, c4, c5, c6, c7⟩ := ih x1 hnd.2 hfindL
      refine ⟨?_, ?_, ?_, ?_, ?_, ?_, ?_⟩
      · intro j hj
        have h1 : ∀ d ∈ L, d.id ≠ j := fun d hd => hj d (by simp [hd])
        have h2 : dep.id ≠ j := hj dep (by simp)
        rw [c1 j h1, hfind1 j (fun h => h2 h.symm)]
      · intro j
        rw [c2 j, hcomp1 j]
      · intro j
        rw [c3 j, hdeps1 j]
      · intro j
        rw [c4 j, hrec1 j]
      · intro j
        rw [c5 j, hsome1 j]
      · rw [c6, hids1]
      · intro d hd
        rcases List.mem_cons.mp hd with heq | hmem
        · subst heq
          have hids : ∀ d' ∈ L, d'.id ≠ d.id := by
            intro d' hd' hcontra
            exact hnd.1 (hcontra ▸ List.mem_map_of_mem (fun t => t.id) hd')
          rw [c1 d.id hids]
          exact hself
        · have := c7 d hmem
          rw [this]
          congr 2
          rw [allDepsComplete_congr d.deps (fun k _ => hcomp1 k)]

/-! ### Validation lemmas -/

theorem validate_ok_exists {taskId : Nat} {ds : List Nat} {allTasks : Store}
    {u : Unit} (h : validateDependencies taskId ds allTasks = .ok u) :
    ∀ d ∈ ds, (findTask allTasks d).isSome = true := by
  unfold validateDependencies at h
  split_ifs at h with h1 h2
  intro d hd
  rw [List.any_eq_true] at h1
  push_neg at h1
  have := h1 d hd
  cases hfd : findTask allTasks d with
  | none => rw [hfd] at this; simp at this
  | some t => rfl

theorem bfsCycle_of_mem (allTasks : Store) (taskId : Nat) :
    ∀ fuel queue visited, (∃ p, p < fuel ∧ queue.get? p = some taskId) →
      visited.contains taskId = false →
      bfsCycle allTasks taskId fuel queue visited = true := by
  intro fuel
  induction fuel with
  | zero =>
      intro queue visited hp _
      obtain ⟨p, hp0, _⟩ := hp
      omega
  | succ fuel ih =>
      intro queue visited hp hv
      obtain ⟨p, hpf, hget⟩ := hp
      cases queue with
      | nil => rw [List.get?_nil] at hget; cases hget
      | cons c q =>
          by_cases hc : c = taskId
          · subst hc
            unfold bfsCycle
            simp
          · have hp1 : p ≠ 0 := by
              intro h0
              rw [h0] at hget
              simp [List.get?_cons_zero] at hget
              exact hc hget
            have hgq : q.get? (p - 1) = some taskId := by
              cases p with
              | zero => exact absurd rfl hp1
              | succ p' => simpa [List.get?_cons_succ] using hget
            have hlt : p - 1 < fuel := by omega
            unfold bfsCycle
            have hcc : (c == taskId) = false := by simp [hc]
            rw [hcc]
            simp only [Bool.false_eq_true, if_false]
            split_ifs with hvis
            · exact ih q visited ⟨p - 1, hlt, hgq⟩ hv
            · refine ih _ (c :: visited) ⟨p - 1, hlt, ?_⟩ ?_
              · have hlen : p - 1 < q.length := by
                  have := List.get?_eq_some.mp hgq
                  exact this.choose
                rw [List.get?_append hlen]
                exact hgq
              · simp only [List.contains_cons]
                rw [Bool.or_eq_false_iff]
                constructor
                · simp [Ne.symm hc]
                · exact hv

theorem hasCircular_of_self {taskId : Nat} {ds : List Nat}
    {allTasks : Store} (hmem : taskId ∈ ds) :
    hasCircularDependency taskId ds allTasks = true := by
  unfold hasCircularDependency
  obtain ⟨p, hp⟩ := List.get?_of_mem hmem
  refine bfsCycle_of_mem allTasks taskId _ ds [] ⟨p, ?_, hp⟩ rfl
  have hlen : p < ds.length := (List.get?_eq_some.mp hp).choose
  omega

theorem validate_ok_not_self {taskId : Nat} {ds : List Nat}
    {allTasks : Store} {u : Unit}
    (h : validateDependencies taskId ds allTasks = .ok u) : taskId ∉ ds := by
  intro hmem
  unfold validateDependencies at h
  split_ifs at h with h1 h2
  exact h2 (hasCircular_of_self hmem)

/-! ### Miscellaneous helpers for the operation proofs -/

theorem allDeps_mono {s s' : Store}
    (h : ∀ d, isCompletedB s d = true → isCompletedB s' d = true)
    {ds : List Nat} (hall : allDepsComplete s ds = true) :
    allDepsComplete s' ds = true := by
  unfold allDepsComplete at hall ⊢
  rw [List.all_eq_true] at hall ⊢
  exact fun d hd => h d (hall d hd)

theorem mem_dependent_ids {x : Store}
    (hnd : (x.map (fun t => t.id)).Nodup) {i j : Nat} {tj : STask}
    (hf : findTask x j = some tj) :
    (j ∈ (getDependents x i).map (fun d => d.id)) ↔
      tj.deps.contains i = true := by
  constructor
  · intro hmem
    obtain ⟨dep, hdep, hid⟩ := List.mem_map.mp hmem
    rw [mem_getDependents] at hdep
    have : findTask x dep.id = some dep := mem_findTask hnd hdep.1
    rw [hid, hf] at this
    cases this
    exact hdep.2
  · intro hcon
    refine List.mem_map.mpr ⟨tj, ?_, findTask_id hf⟩
    rw [mem_getDependents]
    exact ⟨findTask_mem hf, hcon⟩

theorem filter_ne_self {ds : List Nat} {i : Nat}
    (h : i ∉ ds) : ds.filter (fun d => !(d == i)) = ds := by
  apply List.filter_eq_self.mpr
  intro d hd
  simp only [Bool.not_eq_true', beq_eq_false_iff_ne, ne_eq]
  intro hcontra
  exact h (hcontra ▸ hd)

/-! ### Preservation: create -/

theorem isCompletedB_append (s : Store) (t : STask) {j : Nat}
    (hj : (findTask s j).isSome = true) :
    isCompletedB (s ++ [t]) j = isCompletedB s j := by
  unfold isCompletedB
  cases hf : findTask s j with
  | none => rw [hf] at hj; cases hj
  | some u => rw [findTask_append_left t hf]

theorem createTask_inv {s : Store} (hinv : StoreInv s) (deps : List Nat)
    (r : Bool) {s' : Store} (h : createTask s deps r = .ok s') :
    StoreInv s' := by
  unfold createTask at h
  cases hv : validateDependencies (nextId s) deps s with
  | error e => rw [hv] at h; exact Except.noConfusion h
  | ok u =>
      rw [hv] at h
      have hs' : s' = s ++
          [{ id := nextId s
             status := if !deps.isEmpty && !(allDepsComplete s deps)
               then .blocked else .open_
             deps := deps
             recurring := r }] := by
        cases h
        rfl
      subst hs'
      set newTask : STask :=
        { id := nextId s
          status := if !deps.isEmpty && !(allDepsComplete s deps)
            then .blocked else .open_
          deps := deps
          recurring := r } with hnew
      have hnd : (s.map (fun t => t.id)).Nodup := storeInv_nodup hinv
      have hfreshmem : nextId s ∉ s.map (fun t => t.id) := by
        intro hmem
        obtain ⟨t, ht, hid⟩ := List.mem_map.mp hmem
        have := id_lt_nextId ht
        omega
      have hnd' : ((s ++ [newTask]).map (fun t => t.id)).Nodup := by
        rw [List.map_append]
        rw [List.nodup_append]
        refine ⟨hnd, by simp, ?_⟩
        intro a ha hb
        simp only [List.map_cons, List.map_nil, List.mem_singleton] at hb
        rw [hb] at ha
        exact hfreshmem ha
      have hdex : ∀ d ∈ deps, (findTask s d).isSome = true :=
        validate_ok_exists hv
      have hpres : ∀ d, (findTask s d).isSome = true →
          findTask (s ++ [newTask]) d = findTask s d := by
        intro d hd
        cases hf : findTask s d with
        | none => rw [hf] at hd; cases hd
        | some t => exact findTask_append_left newTask hf
      have hcomp : ∀ ds : List Nat, (∀ d ∈ ds, (findTask s d).isSome = true) →
          allDepsComplete (s ++ [newTask]) ds = allDepsComplete s ds := by
        intro ds hds
        refine allDepsComplete_congr ds (fun d hd => ?_)
        unfold isCompletedB
        rw [hpres d (hds d hd)]
      refine storeInv_of_find hnd' ?_
      intro j t' hf'
      rcases findTask_append_cases s newTask j with hcase | ⟨hnone, hid, hsome⟩
      · rw [hcase] at hf'
        obtain ⟨hwf, hiff, hi4⟩ := storeInv_find hinv hf'
        have hwfspec := taskWf_spec hwf
        refine ⟨?_, ?_, hi4⟩
        · unfold taskWfB
          rw [List.all_eq_true]
          intro d hd
          rw [Bool.and_eq_true]
          refine ⟨?_, ?_⟩
          · rw [hpres d (hwfspec d hd).1]
            exact (hwfspec d hd).1
          · simp [(hwfspec d hd).2]
        · unfold taskIffB at hiff ⊢
          rw [hcomp t'.deps (fun d hd => (hwfspec d hd).1)]
          exact hiff
      · rw [hsome] at hf'
        have ht' : t' = newTask := by cases hf'; rfl
        subst ht'
        refine ⟨?_, ?_, ?_⟩
        · unfold taskWfB
          rw [List.all_eq_true]
          intro d hd
          have hdd : d ∈ deps := hd
          rw [Bool.and_eq_true]
          refine ⟨?_, ?_⟩
          · rw [hpres d (hdex d hdd)]
            exact hdex d hdd
          · obtain ⟨td, htd⟩ := Option.isSome_iff_exists.mp (hdex d hdd)
            have hidd : td.id = d := findTask_id htd
            have hlt := id_lt_nextId (findTask_mem htd)
            have : d < nextId s := hidd ▸ hlt
            simp only [hnew]
            simp only [beq_eq_false_iff_ne, ne_eq, Bool.not_eq_true']
            omega
        · unfold taskIffB
          have hdeps : newTask.deps = deps := rfl
          rw [hdeps, hcomp deps hdex]
          simp only [hnew]
          by_cases hb : (!deps.isEmpty && !(allDepsComplete s deps)) = true
          · simp [hb]
          · rw [Bool.not_eq_true] at hb
            simp [hb]
        · unfold taskI4B
          simp only [hnew]
          split_ifs <;> simp

/-! ### Preservation: complete -/

theorem contains_ne_nil {ds : List Nat} {i : Nat}
    (h : ds.contains i = true) : ds.isEmpty = false := by
  cases ds with
  | nil => simp [List.contains] at h
  | cons a l => rfl

theorem contains_mem {ds : List Nat} {i : Nat}
    (h : ds.contains i = true) : i ∈ ds := by
  simpa using h

theorem completeTask_inv {s : Store} (hinv : StoreInv s) (i : Nat)
    (hallow : ∀ t, findTask s i = some t → allDepsComplete s t.deps = true)
    {s' : Store} (h : completeTask s i = .ok s') :
    StoreInv s' ∧
    (∀ j tj, findTask s j = some tj → tj.status = .blocked →
      tj.deps.contains i = true →
      (∀ d ∈ tj.deps, d ≠ i → isCompletedB s d = true) →
      (∀ ti, findTask s i = some ti → ti.recurring = false) →
      statusOf s' j = some .open_) := by
  unfold completeTask at h
  cases hf : findTask s i with
  | none => rw [hf] at h; exact Except.noConfusion h
  | some t =>
      rw [hf] at h
      have hs' : s' = onTaskComplete
          (setStatus s i (if t.recurring then .open_ else .completed)) i := by
        cases h
        rfl
      subst hs'
      set v : TStatus := if t.recurring then .open_ else .completed with hv
      set s1 : Store := setStatus s i v with hs1
      have hnd : (s.map (fun t => t.id)).Nodup := storeInv_nodup hinv
      have hids1 : s1.map (fun t => t.id) = s.map (fun t => t.id) := by
        rw [hs1]
        exact ids_mapTask s i _ (setStatus_id v)
      have hnd1 : (s1.map (fun t => t.id)).Nodup := by rw [hids1]; exact hnd
      obtain ⟨hwf_t, hiff_t, hi4_t⟩ := storeInv_find hinv hf
      have hwts := taskWf_spec hwf_t
      have hall : allDepsComplete s t.deps = true := hallow t hf
      have hvnb : (v == TStatus.blocked) = false := by
        rw [hv]
        split_ifs <;> rfl
      have hfid : t.id = i := findTask_id hf
      have hf1ne : ∀ j, j ≠ i → findTask s1 j = findTask s j := by
        intro j hj
        rw [hs1]
        exact findTask_setStatus_ne s i v hj
      have hf1i : findTask s1 i = some { t with status := v } := by
        rw [hs1, findTask_setStatus_self, hf]
        rfl
      have hcomp_ne : ∀ d, d ≠ i → isCompletedB s1 d = isCompletedB s d := by
        intro d hd
        unfold isCompletedB
        rw [hf1ne d hd]
      have hcomp_i : isCompletedB s1 i = (v == TStatus.completed) := by
        unfold isCompletedB
        rw [hf1i]
      have hmono : ∀ d, isCompletedB s d = true → isCompletedB s1 d = true := by
        intro d hd
        by_cases hdi : d = i
        · subst hdi
          rw [hcomp_i]
          unfold isCompletedB at hd
          rw [hf] at hd
          have hrec : t.recurring = false := by
            unfold taskI4B at hi4_t
            rw [Bool.not_eq_true', Bool.and_eq_false_iff] at hi4_t
            rcases hi4_t with h1 | h2
            · exact h1
            · have hd' : (t.status == TStatus.completed) = true := hd
              rw [hd'] at h2
              cases h2
          rw [hv, hrec]
          simp
        · rw [hcomp_ne d hdi]; exact hd
      have hfindL : ∀ dep ∈ getDependents s1 i, findTask s1 dep.id = some dep :=
        fun dep hdep => mem_findTask hnd1 (mem_getDependents.mp hdep).1
      obtain ⟨d1, d2, d3, d4, d5, d6, d7⟩ :=
        cascadeRun_spec (getDependents s1 i) s1 (getDependents_nodup hnd1 i)
          hfindL
      have hy : onTaskComplete s1 i = (getDependents s1 i).foldl
          (fun acc dep =>
            if dep.status == .blocked && allDepsComplete acc dep.deps then
              setStatus acc dep.id .open_
            else acc) s1 := rfl
      rw [hy]
      have hno_i : ∀ dep ∈ getDependents s1 i, dep.id ≠ i := by
        intro dep hdep hcontra
        have hfd := hfindL dep hdep
        have hdmem := (mem_getDependents.mp hdep).2
        rw [hcontra, hf1i] at hfd
        have hdeq : dep = { t with status := v } := (Option.some.inj hfd).symm
        rw [hdeq] at hdmem
        have hns := (hwts i (contains_mem hdmem)).2
        rw [hdeq] at hcontra
        exact hns hcontra.symm
      constructor
      · refine storeInv_of_find (by rw [d6, hids1]; exact hnd) ?_
        intro j t' hf'
        by_cases hji : j = i
        · rw [hji] at hf'
          rw [d1 i hno_i, hf1i] at hf'
          have ht' : t' = { t with status := v } := (Option.some.inj hf').symm
          subst ht'
          refine ⟨?_, ?_, ?_⟩
          · unfold taskWfB
            rw [List.all_eq_true]
            intro d hd
            have hds := hwts d hd
            rw [Bool.and_eq_true]
            constructor
            · rw [d5 d, hs1, isSome_setStatus]
              exact hds.1
            · simp [hds.2]
          · unfold taskIffB
            simp only [hvnb]
            have hpres : allDepsComplete ((getDependents s1 i).foldl
                (fun acc dep =>
                  if dep.status == .blocked && allDepsComplete acc dep.deps
                  then setStatus acc dep.id .open_ else acc) s1) t.deps
                = allDepsComplete s t.deps := by
              refine allDepsComplete_congr t.deps (fun d hd => ?_)
              rw [d2 d, hcomp_ne d (fun hdi => (hwts d hd).2 (hdi.trans hfid.symm))]
            rw [hpres, hall]
            simp
          · unfold taskI4B
            simp only
            rw [hv]
            cases hr : t.recurring with
            | false => simp
            | true => simp
        · have hsome : (findTask s1 j).isSome = true := by
            rw [← d5 j, hf']
            rfl
          obtain ⟨tj, hfj1⟩ := Option.isSome_iff_exists.mp hsome
          have hfj : findTask s j = some tj := by
            rw [← hf1ne j hji]
            exact hfj1
          obtain ⟨hwfj, hiffj, hi4j⟩ := storeInv_find hinv hfj
          have hwjs := taskWf_spec hwfj
          have hwfgoal : taskWfB ((getDependents s1 i).foldl
              (fun acc dep =>
                if dep.status == .blocked && allDepsComplete acc dep.deps
                then setStatus acc dep.id .open_ else acc) s1) tj = true := by
            unfold taskWfB
            rw [List.all_eq_true]
            intro d hd
            rw [Bool.and_eq_true]
            refine ⟨?_, by simp [(hwjs d hd).2]⟩
            rw [d5 d, hs1, isSome_setStatus]
            exact (hwjs d hd).1
          by_cases hdep : tj.deps.contains i = true
          · have hmemL : tj ∈ getDependents s1 i :=
              mem_getDependents.mpr ⟨findTask_mem hfj1, hdep⟩
            have hd7 := d7 tj hmemL
            have hjid : tj.id = j := findTask_id hfj1
            rw [← hjid] at hf'
            rw [hd7] at hf'
            have hne : tj.deps.isEmpty = false := contains_ne_nil hdep
            by_cases hc : ((tj.status == TStatus.blocked)
                && allDepsComplete s1 tj.deps) = true
            · rw [if_pos hc] at hf'
              have ht' : t' = { tj with status := TStatus.open_ } :=
                (Option.some.inj hf').symm
              subst ht'
              refine ⟨?_, ?_, by unfold taskI4B; simp⟩
              · unfold taskWfB
                rw [List.all_eq_true]
                intro d hd
                rw [Bool.and_eq_true]
                refine ⟨?_, by simp [(hwjs d hd).2]⟩
                rw [d5 d, hs1, isSome_setStatus]
                exact (hwjs d hd).1
              · unfold taskIffB
                simp only
                rw [Bool.and_eq_true] at hc
                have hall1 : allDepsComplete ((getDependents s1 i).foldl
                    (fun acc dep =>
                      if dep.status == .blocked
                        && allDepsComplete acc dep.deps
                      then setStatus acc dep.id .open_ else acc) s1) tj.deps
                    = true := by
                  refine allDeps_mono (fun d hd => ?_) hc.2
                  rw [d2 d]
                  exact hd
                rw [hall1]
                simp
            · rw [if_neg hc] at hf'
              have ht' : t' = tj := (Option.some.inj hf').symm
              subst ht'
              have hallpres : allDepsComplete ((getDependents s1 i).foldl
                  (fun acc dep =>
                    if dep.status == .blocked && allDepsComplete acc dep.deps
                    then setStatus acc dep.id .open_ else acc) s1) t'.deps
                  = allDepsComplete s1 t'.deps :=
                allDepsComplete_congr t'.deps (fun d _ => d2 d)
              refine ⟨hwfgoal, ?_, hi4j⟩
              unfold taskIffB
              rw [hallpres]
              by_cases hb : (t'.status == TStatus.blocked) = true
              · have hnall : allDepsComplete s1 t'.deps = false := by
                  cases hcase : allDepsComplete s1 t'.deps
                  · rfl
                  · exact absurd (by rw [hb, hcase]; rfl) hc
                rw [hb, hne, hnall]
                simp
              · have hbf : (t'.status == TStatus.blocked) = false := by
                  cases hcase : (t'.status == TStatus.blocked)
                  · rfl
                  · exact absurd hcase hb
                unfold taskIffB at hiffj
                rw [hbf, hne] at hiffj ⊢
                have halls : allDepsComplete s t'.deps = true := by
                  cases hcase : allDepsComplete s t'.deps
                  · rw [hcase] at hiffj
                    simp at hiffj
                  · rfl
                have halls1 := allDeps_mono hmono halls
                rw [halls1]
                simp
          · have hdep' : tj.deps.contains i = false := by
              cases hcase : tj.deps.contains i
              · rfl
              · exact absurd hcase hdep
            have hnotL : ∀ dep ∈ getDependents s1 i, dep.id ≠ j := by
              intro dep hdepL hcontra
              have hfd := hfindL dep hdepL
              rw [hcontra, hfj1] at hfd
              have heq : dep = tj := (Option.some.inj hfd.symm)
              have hcont := (mem_getDependents.mp hdepL).2
              rw [heq, hdep'] at hcont
              cases hcont
            rw [d1 j hnotL, hfj1] at hf'
            have ht' : t' = tj := (Option.some.inj hf').symm
            subst ht'
            have hnmem : i ∉ t'.deps := by
              have h' := hdep'
              simp only [List.contains, List.elem_eq_mem,
                decide_eq_false_iff_not] at h'
              exact h'
            refine ⟨hwfgoal, ?_, hi4j⟩
            unfold taskIffB at hiffj ⊢
            have hpres : allDepsComplete ((getDependents s1 i).foldl
                (fun acc dep =>
                  if dep.status == .blocked && allDepsComplete acc dep.deps
                  then setStatus acc dep.id .open_ else acc) s1) t'.deps
                = allDepsComplete s t'.deps := by
              refine allDepsComplete_congr t'.deps (fun d hd => ?_)
              rw [d2 d, hcomp_ne d (fun hdi => hnmem (hdi ▸ hd))]
            rw [hpres]
            exact hiffj
      · intro j tj hfj hblocked hcont hothers hnonrec
        have hrecf : t.recurring = false := hnonrec t rfl
        have hns := ((taskWf_spec (storeInv_find hinv hfj).1) i
          (contains_mem hcont)).2
        rw [findTask_id hfj] at hns
        have hji : j ≠ i := fun h => hns h.symm
        have hfj1 : findTask s1 j = some tj := by
          rw [hf1ne j hji]
          exact hfj
        have hmemL : tj ∈ getDependents s1 i :=
          mem_getDependents.mpr ⟨findTask_mem hfj1, hcont⟩
        have hd7 := d7 tj hmemL
        rw [findTask_id hfj1] at hd7
        have hcondall : allDepsComplete s1 tj.deps = true := by
          unfold allDepsComplete
          rw [List.all_eq_true]
          intro d hd
          by_cases hdi : d = i
          · rw [hdi, hcomp_i, hv, hrecf]
            simp
          · rw [hcomp_ne d hdi]
            exact hothers d hd hdi
        have hcond : ((tj.status == TStatus.blocked)
            && allDepsComplete s1 tj.deps) = true := by
          rw [hblocked, hcondall]
          rfl
        rw [if_pos hcond] at hd7
        unfold statusOf
        rw [hd7]
        rfl

/-! ### Generic invariant preservation through a repair fold -/

theorem isSome_mapTask (s : Store) (i : Nat) (f : STask → STask)
    (hid : ∀ t, (f t).id = t.id) (j : Nat) :
    (findTask (mapTask s i f) j).isSome = (findTask s j).isSome := by
  by_cases h : j = i
  · rw [h, findTask_mapTask_self s i f hid]
    cases findTask s i <;> rfl
  · rw [findTask_mapTask_ne s i f hid h]

theorem cascadeDependents_eq (x : Store) (i : Nat) :
    cascadeDependents x i
      = repairRun ((getDependents x i).map (fun d => d.id)) x := by
  unfold cascadeDependents repairRun
  rw [List.foldl_map]

theorem repaired_completed_inv {w : Store} {t : STask}
    (h : repairedStatus w t = .completed) :
    t.deps.isEmpty = true ∨ allDepsComplete w t.deps = true := by
  unfold repairedStatus at h
  by_cases h1 : t.deps.isEmpty = true
  · exact Or.inl h1
  · rw [if_neg h1] at h
    by_cases h2 : (!(allDepsComplete w t.deps)) = true
    · rw [if_pos h2] at h
      by_cases h3 : (!(t.status == TStatus.blocked)) = true
      · rw [if_pos h3] at h
        cases h
      · rw [if_neg h3] at h
        simp only [Bool.not_eq_true', Bool.not_eq_false] at h3
        rw [h] at h3
        simp at h3
    · rw [if_neg h2] at h
      simp only [Bool.not_eq_true', Bool.not_eq_false] at h2
      exact Or.inr h2

theorem iff_not_blocked {s : Store} {t : STask} (hiff : taskIffB s t = true)
    (hnb : (t.status == TStatus.blocked) = false) :
    t.deps.isEmpty = true ∨ allDepsComplete s t.deps = true := by
  unfold taskIffB at hiff
  rw [hnb] at hiff
  have hrhs : (!t.deps.isEmpty && !(allDepsComplete s t.deps)) = false := by
    cases hc : (!t.deps.isEmpty && !(allDepsComplete s t.deps))
    · rfl
    · rw [hc] at hiff
      simp at hiff
  rw [Bool.and_eq_false_iff] at hrhs
  rcases hrhs with h | h
  · left
    simpa using h
  · right
    simpa using h

theorem repairRun_inv (L : List Nat) (x : Store)
    (hnd : (x.map (fun t => t.id)).Nodup) (hndL : L.Nodup)
    (hwf : ∀ j t, findTask x j = some t → taskWfB x t = true)
    (hi4 : ∀ j t, findTask x j = some t → taskI4B t = true)
    (hnoflip : ∀ j t, findTask x j = some t → t.status = .completed →
      t.deps.isEmpty = true ∨ allDepsComplete x t.deps = true)
    (hiffout : ∀ j t, findTask x j = some t → j ∉ L → taskIffB x t = true) :
    StoreInv (repairRun L x) := by
  obtain ⟨c1, c2, c3, c4, c5, c6, c7, c8⟩ :=
    repairRun_spec L x hndL (fun k _ t hf hc => hnoflip k t hf hc)
  refine storeInv_of_find (by rw [c6]; exact hnd) ?_
  intro j t' hf'
  have hsome0 : (findTask x j).isSome = true := by
    rw [← c5 j, hf']
    rfl
  obtain ⟨t0, hf0⟩ := Option.isSome_iff_exists.mp hsome0
  have hdeps : t'.deps = t0.deps := by
    have h3 := c3 j
    rw [hf', hf0] at h3
    simpa using h3
  have hrec : t'.recurring = t0.recurring := by
    have h4 := c4 j
    rw [hf', hf0] at h4
    simpa using h4
  have hcompeq : (t'.status == TStatus.completed)
      = (t0.status == TStatus.completed) := c8 j t0 t' hf0 hf'
  have hid' : t'.id = j := findTask_id hf'
  have hid0 : t0.id = j := findTask_id hf0
  refine ⟨?_, ?_, ?_⟩
  · unfold taskWfB
    rw [List.all_eq_true]
    intro d hd
    have hd0 : d ∈ t0.deps := hdeps ▸ hd
    have hw := taskWf_spec (hwf j t0 hf0) d hd0
    rw [Bool.and_eq_true]
    refine ⟨by rw [c5 d]; exact hw.1, ?_⟩
    rw [Bool.not_eq_true', beq_eq_false_iff_ne, ne_eq]
    rw [hid']
    exact fun hdj => hw.2 (hdj.trans hid0.symm)
  · by_cases hjL : j ∈ L
    · exact c7 j hjL t' hf'
    · have hfx : findTask x j = some t' := by
        rw [← c1 j hjL]
        exact hf'
      unfold taskIffB
      have hall : allDepsComplete (repairRun L x) t'.deps
          = allDepsComplete x t'.deps :=
        allDepsComplete_congr t'.deps (fun d _ => c2 d)
      rw [hall]
      exact hiffout j t' hfx hjL
  · have hi := hi4 j t0 hf0
    unfold taskI4B at hi ⊢
    rw [hrec, hcompeq]
    exact hi

/-- The write-then-cascade pattern shared by update and reopen: after an
arbitrary rewrite of task `i`, `cascadeAround` restores the invariant
provided the rewritten store is well-formed, satisfies I4, still satisfies
the Blocked-iff at every task other than `i` and its dependents, and no
dependent of `i` is Completed. -/
theorem cascadeAround_inv {w : Store} (i : Nat)
    (hnd : (w.map (fun t => t.id)).Nodup)
    (hwf : ∀ j t, findTask w j = some t → taskWfB w t = true)
    (hi4 : ∀ j t, findTask w j = some t → taskI4B t = true)
    (hiffout : ∀ j t, findTask w j = some t → j ≠ i →
      t.deps.contains i = false → taskIffB w t = true)
    (hnocomp : ∀ j t, findTask w j = some t → t.deps.contains i = true →
      (t.status == TStatus.completed) = false) :
    StoreInv (cascadeAround w i) := by
  have hrw : cascadeAround w i
      = repairRun ((getDependents (updateDependencyStatus w i) i).map
          (fun d => d.id)) (updateDependencyStatus w i) := by
    unfold cascadeAround
    rw [cascadeDependents_eq]
  rw [hrw]
  have hids0 : (updateDependencyStatus w i).map (fun t => t.id)
      = w.map (fun t => t.id) := upd_ids w i
  have hnd0 : ((updateDependencyStatus w i).map (fun t => t.id)).Nodup := by
    rw [hids0]
    exact hnd
  have hcomp0ne : ∀ d, d ≠ i →
      isCompletedB (updateDependencyStatus w i) d = isCompletedB w d := by
    intro d hd
    unfold isCompletedB
    rw [upd_find_ne w i hd]
  have hwf0 : ∀ j t, findTask (updateDependencyStatus w i) j = some t →
      taskWfB (updateDependencyStatus w i) t = true := by
    intro j t hf
    by_cases hji : j = i
    · rw [hji] at hf
      cases hfw : findTask w i with
      | none =>
          rw [upd_of_none hfw, hfw] at hf
          cases hf
      | some tw =>
          rw [upd_find_self hfw] at hf
          have ht : t = { tw with status := repairedStatus w tw } :=
            (Option.some.inj hf).symm
          subst ht
          unfold taskWfB
          rw [List.all_eq_true]
          intro d hd
          have hd' : d ∈ tw.deps := hd
          have hw := taskWf_spec (hwf i tw hfw) d hd'
          rw [Bool.and_eq_true]
          exact ⟨by rw [upd_isSome w i d]; exact hw.1, by simp [hw.2]⟩
    · rw [upd_find_ne w i hji] at hf
      unfold taskWfB
      rw [List.all_eq_true]
      intro d hd
      have hw := taskWf_spec (hwf j t hf) d hd
      rw [Bool.and_eq_true]
      exact ⟨by rw [upd_isSome w i d]; exact hw.1, by simp [hw.2]⟩
  have hi40 : ∀ j t, findTask (updateDependencyStatus w i) j = some t →
      taskI4B t = true := by
    intro j t hf
    by_cases hji : j = i
    · rw [hji] at hf
      cases hfw : findTask w i with
      | none =>
          rw [upd_of_none hfw, hfw] at hf
          cases hf
      | some tw =>
          rw [upd_find_self hfw] at hf
          have ht : t = { tw with status := repairedStatus w tw } :=
            (Option.some.inj hf).symm
          subst ht
          unfold taskI4B
          show (!(tw.recurring
            && (repairedStatus w tw == TStatus.completed))) = true
          by_cases hc : repairedStatus w tw = .completed
          · have hold : tw.status = .completed := repaired_completed hc
            have hi := hi4 i tw hfw
            unfold taskI4B at hi
            rw [hold] at hi
            have hrec : tw.recurring = false := by
              simpa using hi
            rw [hrec]
            simp
          · have hcb : (repairedStatus w tw == TStatus.completed) = false := by
              simp [hc]
            rw [hcb]
            simp
    · rw [upd_find_ne w i hji] at hf
      exact hi4 j t hf
  have hnoflip0 : ∀ j t, findTask (updateDependencyStatus w i) j = some t →
      t.status = .completed →
      t.deps.isEmpty = true ∨
        allDepsComplete (updateDependencyStatus w i) t.deps = true := by
    intro j t hf hc
    by_cases hji : j = i
    · rw [hji] at hf
      cases hfw : findTask w i with
      | none =>
          rw [upd_of_none hfw, hfw] at hf
          cases hf
      | some tw =>
          rw [upd_find_self hfw] at hf
          have ht : t = { tw with status := repairedStatus w tw } :=
            (Option.some.inj hf).symm
          subst ht
          have hrep : repairedStatus w tw = .completed := hc
          rcases repaired_completed_inv hrep with hemp | hall
          · exact Or.inl hemp
          · refine Or.inr ?_
            show allDepsComplete (updateDependencyStatus w i) tw.deps = true
            have hcg : allDepsComplete (updateDependencyStatus w i) tw.deps
                = allDepsComplete w tw.deps := by
              refine allDepsComplete_congr tw.deps (fun d hd => ?_)
              exact hcomp0ne d (fun hdi =>
                (taskWf_spec (hwf i tw hfw) d hd).2
                  (hdi.trans (findTask_id hfw).symm))
            rw [hcg]
            exact hall
    · rw [upd_find_ne w i hji] at hf
      by_cases hdep : t.deps.contains i = true
      · have hncx := hnocomp j t hf hdep
        rw [hc] at hncx
        simp at hncx
      · have hdep' : t.deps.contains i = false := by
          cases hcase : t.deps.contains i
          · rfl
          · exact absurd hcase hdep
        have hnb : (t.status == TStatus.blocked) = false := by
          simp [hc]
        rcases iff_not_blocked (hiffout j t hf hji hdep') hnb with hemp | hall
        · exact Or.inl hemp
        · refine Or.inr ?_
          have hii : i ∉ t.deps := by
            simp only [List.contains, List.elem_eq_mem,
              decide_eq_false_iff_not] at hdep'
            exact hdep'
          have hcg : allDepsComplete (updateDependencyStatus w i) t.deps
              = allDepsComplete w t.deps := by
            refine allDepsComplete_congr t.deps (fun d hd => ?_)
            exact hcomp0ne d (fun hdi => hii (hdi ▸ hd))
          rw [hcg]
          exact hall
  have hiffout0 : ∀ j t, findTask (updateDependencyStatus w i) j = some t →
      j ∉ (getDependents (updateDependencyStatus w i) i).map (fun d => d.id) →
      taskIffB (updateDependencyStatus w i) t = true := by
    intro j t hf hjL
    by_cases hji : j = i
    · rw [hji] at hf
      cases hfw : findTask w i with
      | none =>
          rw [upd_of_none hfw, hfw] at hf
          cases hf
      | some tw =>
          rw [upd_find_self hfw] at hf
          have ht : t = { tw with status := repairedStatus w tw } :=
            (Option.some.inj hf).symm
          subst ht
          unfold taskIffB
          show ((repairedStatus w tw == TStatus.blocked)
            == (!tw.deps.isEmpty &&
              !(allDepsComplete (updateDependencyStatus w i) tw.deps)))
            = true
          have hcg : allDepsComplete (updateDependencyStatus w i) tw.deps
              = allDepsComplete w tw.deps := by
            refine allDepsComplete_congr tw.deps (fun d hd => ?_)
            exact hcomp0ne d (fun hdi =>
              (taskWf_spec (hwf i tw hfw) d hd).2
                (hdi.trans (findTask_id hfw).symm))
          rw [hcg]
          exact repaired_iff w tw
    · have hfy : findTask (updateDependencyStatus w i) j = some t := hf
      rw [upd_find_ne w i hji] at hf
      have hdep : t.deps.contains i = false := by
        cases hcase : t.deps.contains i
        · rfl
        · exact absurd ((mem_dependent_ids hnd0 hfy).mpr hcase) hjL
      have hbase := hiffout j t hf hji hdep
      unfold taskIffB at hbase ⊢
      have hii : i ∉ t.deps := by
        simp only [List.contains, List.elem_eq_mem,
          decide_eq_false_iff_not] at hdep
        exact hdep
      have hcg : allDepsComplete (updateDependencyStatus w i) t.deps
          = allDepsComplete w t.deps := by
        refine allDepsComplete_congr t.deps (fun d hd => ?_)
        exact hcomp0ne d (fun hdi => hii (hdi ▸ hd))
      rw [hcg]
      exact hbase
  exact repairRun_inv _ _ hnd0 (getDependents_nodup hnd0 i)
    hwf0 hi40 hnoflip0 hiffout0

theorem reopenTask_inv {s : Store} (hinv : StoreInv s) (i : Nat)
    (hallow : ∀ t ∈ s, t.deps.contains i = true →
      (t.status == TStatus.completed) = false)
    {s' : Store} (h : reopenTask s i = .ok s') :
    StoreInv s' := by
  unfold reopenTask at h
  split at h
  · exact Except.noConfusion h
  · rename_i t hf
    have hs' : s' = cascadeAround (setStatus s i .open_) i := by
      cases h
      rfl
    subst hs'
    have hnd : (s.map (fun t => t.id)).Nodup := storeInv_nodup hinv
    refine cascadeAround_inv i ?_ ?_ ?_ ?_ ?_
    · have hids : (setStatus s i TStatus.open_).map (fun t => t.id)
          = s.map (fun t => t.id) :=
        ids_mapTask s i (fun t => { t with status := TStatus.open_ })
          (setStatus_id TStatus.open_)
      rw [hids]
      exact hnd
    · intro j t' hf'
      by_cases hji : j = i
      · rw [hji, findTask_setStatus_self, hf] at hf'
        have ht' : t' = { t with status := TStatus.open_ } :=
          (Option.some.inj hf').symm
        subst ht'
        unfold taskWfB
        rw [List.all_eq_true]
        intro d hd
        have hd' : d ∈ t.deps := hd
        have hw := taskWf_spec (storeInv_find hinv hf).1 d hd'
        rw [Bool.and_eq_true]
        exact ⟨by rw [isSome_setStatus s i _ d]; exact hw.1, by simp [hw.2]⟩
      · rw [findTask_setStatus_ne s i _ hji] at hf'
        unfold taskWfB
        rw [List.all_eq_true]
        intro d hd
        have hw := taskWf_spec (storeInv_find hinv hf').1 d hd
        rw [Bool.and_eq_true]
        exact ⟨by rw [isSome_setStatus s i _ d]; exact hw.1, by simp [hw.2]⟩
    · intro j t' hf'
      by_cases hji : j = i
      · rw [hji, findTask_setStatus_self, hf] at hf'
        have ht' : t' = { t with status := TStatus.open_ } :=
          (Option.some.inj hf').symm
        subst ht'
        unfold taskI4B
        show (!(t.recurring && (TStatus.open_ == TStatus.completed))) = true
        simp
      · rw [findTask_setStatus_ne s i _ hji] at hf'
        exact (storeInv_find hinv hf').2.2
    · intro j t' hf' hji hdep
      rw [findTask_setStatus_ne s i _ hji] at hf'
      have hbase := (storeInv_find hinv hf').2.1
      unfold taskIffB at hbase ⊢
      have hii : i ∉ t'.deps := by
        simp only [List.contains, List.elem_eq_mem,
          decide_eq_false_iff_not] at hdep
        exact hdep
      have hcg : allDepsComplete (setStatus s i .open_) t'.deps
          = allDepsComplete s t'.deps := by
        refine allDepsComplete_congr t'.deps (fun d hd => ?_)
        exact isCompletedB_setStatus_ne s i _ (fun hdi => hii (hdi ▸ hd))
      rw [hcg]
      exact hbase
    · intro j t' hf' hdep
      by_cases hji : j = i
      · rw [hji, findTask_setStatus_self, hf] at hf'
        have ht' : t' = { t with status := TStatus.open_ } :=
          (Option.some.inj hf').symm
        subst ht'
        have hmem : i ∈ t.deps := contains_mem hdep
        exact absurd (findTask_id hf).symm
          (taskWf_spec (storeInv_find hinv hf).1 i hmem).2
      · rw [findTask_setStatus_ne s i _ hji] at hf'
        exact hallow t' (findTask_mem hf') hdep

theorem updateTask_inv {s : Store} (hinv : StoreInv s) (i : Nat)
    (nd : Option (List Nat)) (ns : Option TStatus)
    (hallow : ∀ t, findTask s i = some t →
      (t.status == TStatus.completed) = false)
    {s' : Store} (h : updateTask s i nd ns = .ok s') :
    StoreInv s' := by
  unfold updateTask at h
  split at h
  · exact Except.noConfusion h
  · rename_i t hf
    split at h
    · exact Except.noConfusion h
    · rename_i u hv
      split at h
      · exact Except.noConfusion h
      · rename_i hg
        have hs' : s' = cascadeAround (updateWrite s i nd ns) i := by
          cases h
          rfl
        subst hs'
        have hnd : (s.map (fun t => t.id)).Nodup := storeInv_nodup hinv
        have hfw_i : findTask (updateWrite s i nd ns) i
            = some { t with deps := nd.getD t.deps, status := ns.getD t.status } := by
          have h2 : findTask (updateWrite s i nd ns) i
              = (findTask s i).map (fun v =>
                { v with deps := nd.getD v.deps, status := ns.getD v.status }) :=
            findTask_mapTask_self s i
              (fun v => { v with deps := nd.getD v.deps, status := ns.getD v.status })
              (fun v => rfl)
          rw [h2, hf]
          rfl
        have hfw_ne : ∀ j, j ≠ i →
            findTask (updateWrite s i nd ns) j = findTask s j :=
          fun j hj => findTask_mapTask_ne s i
            (fun v => { v with deps := nd.getD v.deps, status := ns.getD v.status })
            (fun v => rfl) hj
        have hsome : ∀ j, (findTask (updateWrite s i nd ns) j).isSome
            = (findTask s j).isSome :=
          fun j => isSome_mapTask s i
            (fun v => { v with deps := nd.getD v.deps, status := ns.getD v.status })
            (fun v => rfl) j
        have hdep_i : ∀ d, d ∈ nd.getD t.deps → d ≠ i := by
          intro d hd hdi
          cases hndc : nd with
          | none =>
              rw [hndc] at hd
              have hd2 : d ∈ t.deps := hd
              have hw := taskWf_spec (storeInv_find hinv hf).1 d hd2
              exact hw.2 (hdi.trans (findTask_id hf).symm)
          | some ds =>
              rw [hndc] at hd hv
              have hd2 : d ∈ ds := hd
              have hv' : validateDependencies i ds s = Except.ok u := hv
              exact absurd (hdi ▸ hd2) (validate_ok_not_self hv')
        have hdepex : ∀ d, d ∈ nd.getD t.deps →
            (findTask s d).isSome = true := by
          intro d hd
          cases hndc : nd with
          | none =>
              rw [hndc] at hd
              have hd2 : d ∈ t.deps := hd
              exact (taskWf_spec (storeInv_find hinv hf).1 d hd2).1
          | some ds =>
              rw [hndc] at hd hv
              have hd2 : d ∈ ds := hd
              have hv' : validateDependencies i ds s = Except.ok u := hv
              exact validate_ok_exists hv' d hd2
        refine cascadeAround_inv i ?_ ?_ ?_ ?_ ?_
        · have hids : (updateWrite s i nd ns).map (fun t => t.id)
              = s.map (fun t => t.id) :=
            ids_mapTask s i
              (fun v => { v with deps := nd.getD v.deps, status := ns.getD v.status })
              (fun v => rfl)
          rw [hids]
          exact hnd
        · intro j t' hf'
          by_cases hji : j = i
          · rw [hji, hfw_i] at hf'
            have ht' : t' =
                { t with deps := nd.getD t.deps, status := ns.getD t.status } :=
              (Option.some.inj hf').symm
            subst ht'
            unfold taskWfB
            rw [List.all_eq_true]
            intro d hd
            have hd' : d ∈ nd.getD t.deps := hd
            rw [Bool.and_eq_true]
            constructor
            · rw [hsome d]
              exact hdepex d hd'
            · have hdi : d ≠ i := hdep_i d hd'
              simp only [Bool.not_eq_true', beq_eq_false_iff_ne, ne_eq]
              show ¬(d = t.id)
              rw [findTask_id hf]
              exact hdi
          · rw [hfw_ne j hji] at hf'
            unfold taskWfB
            rw [List.all_eq_true]
            intro d hd
            have hw := taskWf_spec (storeInv_find hinv hf').1 d hd
            rw [Bool.and_eq_true]
            exact ⟨by rw [hsome d]; exact hw.1, by simp [hw.2]⟩
        · intro j t' hf'
          by_cases hji : j = i
          · rw [hji, hfw_i] at hf'
            have ht' : t' =
                { t with deps := nd.getD t.deps, status := ns.getD t.status } :=
              (Option.some.inj hf').symm
            subst ht'
            unfold taskI4B
            show (!(t.recurring
              && (ns.getD t.status == TStatus.completed))) = true
            cases hnsc : ns with
            | none =>
                have hi := (storeInv_find hinv hf).2.2
                unfold taskI4B at hi
                exact hi
            | some st =>
                by_cases hst : st = TStatus.completed
                · have hrec : t.recurring = false := by
                    rw [hnsc, hst] at hg
                    cases hr : t.recurring
                    · rfl
                    · exact absurd (by rw [hr]; rfl) hg
                  rw [hrec]
                  simp
                · have hbc : (st == TStatus.completed) = false := by
                    simp [hst]
                  show (!(t.recurring && (st == TStatus.completed))) = true
                  rw [hbc]
                  simp
          · rw [hfw_ne j hji] at hf'
            exact (storeInv_find hinv hf').2.2
        · intro j t' hf' hji hdep
          rw [hfw_ne j hji] at hf'
          have hbase := (storeInv_find hinv hf').2.1
          unfold taskIffB at hbase ⊢
          have hii : i ∉ t'.deps := by
            simp only [List.contains, List.elem_eq_mem,
              decide_eq_false_iff_not] at hdep
            exact hdep
          have hcg : allDepsComplete (updateWrite s i nd ns) t'.deps
              = allDepsComplete s t'.deps := by
            refine allDepsComplete_congr t'.deps (fun d hd => ?_)
            unfold isCompletedB
            rw [hfw_ne d (fun hdi => hii (hdi ▸ hd))]
          rw [hcg]
          exact hbase
        · intro j t' hf' hdep
          by_cases hji : j = i
          · rw [hji, hfw_i] at hf'
            have ht' : t' =
                { t with deps := nd.getD t.deps, status := ns.getD t.status } :=
              (Option.some.inj hf').symm
            subst ht'
            have hmem : i ∈ nd.getD t.deps := contains_mem hdep
            exact absurd rfl (hdep_i i hmem)
          · rw [hfw_ne j hji] at hf'
            cases hcs : (t'.status == TStatus.completed) with
            | false => rfl
            | true =>
                exfalso
                have hst : t'.status = TStatus.completed := by
                  simpa using hcs
                have hnb : (t'.status == TStatus.blocked) = false := by
                  simp [hst]
                rcases iff_not_blocked (storeInv_find hinv hf').2.1 hnb
                  with hemp | hall
                · rw [contains_ne_nil hdep] at hemp
                  cases hemp
                · have hci : isCompletedB s i = true := by
                    unfold allDepsComplete at hall
                    rw [List.all_eq_true] at hall
                    exact hall i (contains_mem hdep)
                  unfold isCompletedB at hci
                  rw [hf] at hci
                  have hci' : (t.status == TStatus.completed) = true := hci
                  rw [hallow t hf] at hci'
                  cases hci'

/-! ### Deletion: `stripTask` lemmas and invariant preservation (C8) -/

theorem find?_cons_pos {α : Type} (p : α → Bool) (a : α) (l : List α)
    (h : p a = true) : (a :: l).find? p = some a := by
  simp [List.find?_cons, h]

theorem find?_cons_neg {α : Type} (p : α → Bool) (a : α) (l : List α)
    (h : p a = false) : (a :: l).find? p = l.find? p := by
  simp [List.find?_cons, h]

theorem findTask_stripTask_ne (s : Store) (i : Nat) {j : Nat} (hji : j ≠ i) :
    findTask (stripTask s i) j = (findTask s j).map
      (fun t => { t with deps := t.deps.filter (fun d => !(d == i)) }) := by
  unfold stripTask findTask
  induction s with
  | nil => rfl
  | cons a s ih =>
      rw [List.filter_cons]
      by_cases hai : a.id = i
      · have hc1 : ¬((!(a.id == i)) = true) := by simp [hai]
        rw [if_neg hc1]
        have hc2 : ((fun t : STask => t.id == j) a) = false := by
          simp [hai, Ne.symm hji]
        rw [find?_cons_neg (fun t : STask => t.id == j) a _ hc2]
        exact ih
      · have hc1 : (!(a.id == i)) = true := by simp [hai]
        rw [if_pos hc1, List.map_cons]
        by_cases haj : a.id = j
        · have hp1 : ((fun t : STask => t.id == j)
              ({ a with deps := a.deps.filter (fun d => !(d == i)) })) = true := by
            simp [haj]
          have hp2 : ((fun t : STask => t.id == j) a) = true := by
            simp [haj]
          rw [find?_cons_pos (fun t : STask => t.id == j)
            ({ a with deps := a.deps.filter (fun d => !(d == i)) }) _ hp1,
            find?_cons_pos (fun t : STask => t.id == j) a _ hp2]
          rfl
        · have hp1 : ((fun t : STask => t.id == j)
              ({ a with deps := a.deps.filter (fun d => !(d == i)) })) = false := by
            simp [haj]
          have hp2 : ((fun t : STask => t.id == j) a) = false := by
            simp [haj]
          rw [find?_cons_neg (fun t : STask => t.id == j)
            ({ a with deps := a.deps.filter (fun d => !(d == i)) }) _ hp1,
            find?_cons_neg (fun t : STask => t.id == j) a _ hp2]
          exact ih

theorem findTask_stripTask_self (s : Store) (i : Nat) :
    findTask (stripTask s i) i = none := by
  unfold findTask
  rw [List.find?_eq_none]
  intro x hx
  unfold stripTask at hx
  obtain ⟨y, hy, hxy⟩ := List.mem_map.mp hx
  have hyid : (y.id == i) = false := by
    have h2 := (List.mem_filter.mp hy).2
    simpa using h2
  have hxid : (x.id == i) = false := by
    rw [← hxy]
    exact hyid
  simp [hxid]

theorem stripTask_ids (s : Store) (i : Nat) :
    (stripTask s i).map (fun t => t.id)
      = (s.filter (fun t => !(t.id == i))).map (fun t => t.id) := by
  unfold stripTask
  rw [List.map_map]
  rfl

theorem stripTask_nodup {s : Store} (hnd : (s.map (fun t => t.id)).Nodup)
    (i : Nat) : ((stripTask s i).map (fun t => t.id)).Nodup := by
  rw [stripTask_ids]
  exact hnd.sublist (List.Sublist.map _ (List.filter_sublist s))

theorem isCompletedB_stripTask_ne (s : Store) (i : Nat) {d : Nat}
    (hdi : d ≠ i) : isCompletedB (stripTask s i) d = isCompletedB s d := by
  unfold isCompletedB
  rw [findTask_stripTask_ne s i hdi]
  cases findTask s d <;> rfl

theorem deleteTask_eq_some {s : Store} {i : Nat} {t : STask}
    (hf : findTask s i = some t) (force : Bool) :
    deleteTask s i force =
      (if !(getDependents s i).isEmpty && !force then
        .error (.hasDependents ((getDependents s i).map (fun d => d.id)))
      else .ok (((getDependents s i).map (fun d => d.id)).foldl
          (fun acc d => updateDependencyStatus acc d) (stripTask s i))) := by
  unfold deleteTask
  rw [hf]

/-- A committed delete removes the row and restores the invariant: the
freed dependents drop the reference and are re-evaluated per I3. -/
theorem deleteTask_inv {s : Store} (hinv : StoreInv s) (i : Nat) (force : Bool)
    {s' : Store} (h : deleteTask s i force = .ok s') :
    StoreInv s' ∧ findTask s' i = none := by
  unfold deleteTask at h
  split at h
  · exact Except.noConfusion h
  · rename_i t hf
    split at h
    · exact Except.noConfusion h
    · rename_i hguard
      have hs' : s' = ((getDependents s i).map (fun d => d.id)).foldl
          (fun acc d => updateDependencyStatus acc d) (stripTask s i) := by
        cases h
        rfl
      subst hs'
      have hrr : (((getDependents s i).map (fun d => d.id)).foldl
          (fun acc d => updateDependencyStatus acc d) (stripTask s i))
          = repairRun ((getDependents s i).map (fun d => d.id))
              (stripTask s i) := rfl
      rw [hrr]
      have hnds : (s.map (fun t => t.id)).Nodup := storeInv_nodup hinv
      have hnd0 : ((stripTask s i).map (fun t => t.id)).Nodup :=
        stripTask_nodup hnds i
      have hndL : ((getDependents s i).map (fun d => d.id)).Nodup :=
        getDependents_nodup hnds i
      have hfind0 : ∀ j t', findTask (stripTask s i) j = some t' →
          j ≠ i ∧ ∃ t0, findTask s j = some t0 ∧
            t' = { t0 with deps := t0.deps.filter (fun d => !(d == i)) } := by
        intro j t' hf'
        by_cases hji : j = i
        · rw [hji, findTask_stripTask_self] at hf'
          cases hf'
        · refine ⟨hji, ?_⟩
          rw [findTask_stripTask_ne s i hji] at hf'
          cases hfs : findTask s j with
          | none =>
              rw [hfs] at hf'
              cases hf'
          | some t0 =>
              rw [hfs] at hf'
              exact ⟨t0, rfl, (Option.some.inj hf').symm⟩
      have hwf0 : ∀ j t', findTask (stripTask s i) j = some t' →
          taskWfB (stripTask s i) t' = true := by
        intro j t' hf'
        obtain ⟨hji, t0, hfs, ht'⟩ := hfind0 j t' hf'
        subst ht'
        unfold taskWfB
        rw [List.all_eq_true]
        intro d hd
        have hd' : d ∈ t0.deps.filter (fun x => !(x == i)) := hd
        have hdmem : d ∈ t0.deps := (List.mem_filter.mp hd').1
        have hdne : d ≠ i := by
          have h2 := (List.mem_filter.mp hd').2
          simpa using h2
        have hw := taskWf_spec (storeInv_find hinv hfs).1 d hdmem
        rw [Bool.and_eq_true]
        constructor
        · rw [findTask_stripTask_ne s i hdne]
          cases hq : findTask s d with
          | none =>
              rw [hq] at hw
              cases hw.1
          | some u => rfl
        · simp [hw.2]
      have hi40 : ∀ j t', findTask (stripTask s i) j = some t' →
          taskI4B t' = true := by
        intro j t' hf'
        obtain ⟨hji, t0, hfs, ht'⟩ := hfind0 j t' hf'
        subst ht'
        have hi := (storeInv_find hinv hfs).2.2
        unfold taskI4B at hi ⊢
        exact hi
      have hnoflip0 : ∀ j t', findTask (stripTask s i) j = some t' →
          t'.status = .completed →
          t'.deps.isEmpty = true ∨
            allDepsComplete (stripTask s i) t'.deps = true := by
        intro j t' hf' hc
        obtain ⟨hji, t0, hfs, ht'⟩ := hfind0 j t' hf'
        subst ht'
        have hc0 : t0.status = .completed := hc
        have hnb : (t0.status == TStatus.blocked) = false := by
          simp [hc0]
        rcases iff_not_blocked (storeInv_find hinv hfs).2.1 hnb with hemp | hall
        · left
          cases hdeps0 : t0.deps with
          | nil => rfl
          | cons a l =>
              rw [hdeps0] at hemp
              cases hemp
        · right
          show allDepsComplete (stripTask s i)
            (t0.deps.filter (fun d => !(d == i))) = true
          unfold allDepsComplete at hall ⊢
          rw [List.all_eq_true] at hall ⊢
          intro d hd
          have hdmem : d ∈ t0.deps := (List.mem_filter.mp hd).1
          have hdne : d ≠ i := by
            have h2 := (List.mem_filter.mp hd).2
            simpa using h2
          rw [isCompletedB_stripTask_ne s i hdne]
          exact hall d hdmem
      have hiffout0 : ∀ j t', findTask (stripTask s i) j = some t' →
          j ∉ (getDependents s i).map (fun d => d.id) →
          taskIffB (stripTask s i) t' = true := by
        intro j t' hf' hjL
        obtain ⟨hji, t0, hfs, ht'⟩ := hfind0 j t' hf'
        subst ht'
        have hdep : t0.deps.contains i = false := by
          cases hq : t0.deps.contains i
          · rfl
          · exact absurd ((mem_dependent_ids hnds hfs).mpr hq) hjL
        have hii : i ∉ t0.deps := by
          simp only [List.contains, List.elem_eq_mem,
            decide_eq_false_iff_not] at hdep
          exact hdep
        have hfeq : t0.deps.filter (fun d => !(d == i)) = t0.deps :=
          filter_ne_self hii
        have hbase := (storeInv_find hinv hfs).2.1
        unfold taskIffB at hbase ⊢
        show ((t0.status == TStatus.blocked)
          == (!(t0.deps.filter (fun d => !(d == i))).isEmpty
            && !(allDepsComplete (stripTask s i)
              (t0.deps.filter (fun d => !(d == i)))))) = true
        rw [hfeq]
        have hcg : allDepsComplete (stripTask s i) t0.deps
            = allDepsComplete s t0.deps := by
          refine allDepsComplete_congr t0.deps (fun d hd => ?_)
          exact isCompletedB_stripTask_ne s i (fun hdi => hii (hdi ▸ hd))
        rw [hcg]
        exact hbase
      obtain ⟨c1, c2, c3, c4, c5, c6, c7, c8⟩ :=
        repairRun_spec ((getDependents s i).map (fun d => d.id))
          (stripTask s i) hndL (fun k _ t' ht' hc => hnoflip0 k t' ht' hc)
      refine ⟨repairRun_inv _ _ hnd0 hndL hwf0 hi40 hnoflip0 hiffout0, ?_⟩
      have h5 := c5 i
      rw [findTask_stripTask_self] at h5
      cases hq : findTask (repairRun ((getDependents s i).map (fun d => d.id))
          (stripTask s i)) i with
      | none => rfl
      | some t2 =>
          rw [hq] at h5
          exact Bool.noConfusion h5

/-! ### The C4 and C8 claim theorems -/

/-- C8: for a stored task `i`, an unforced delete while some task still
lists `i` among its dependencies fails with `HasDependents` carrying the
referencing ids (and the referencing task is in that list); with no
referencing task the unforced delete succeeds and removes the row; a forced
delete always removes the row and re-establishes invariant I3 for the freed
dependents. -/
theorem c8_delete (s : Store) (i : Nat) (t : STask)
    (hinv : StoreInv s) (hf : findTask s i = some t) :
    (∀ j tj, findTask s j = some tj → tj.deps.contains i = true →
        deleteTask s i false = .error (.hasDependents
          ((getDependents s i).map (fun d => d.id))) ∧
        j ∈ (getDependents s i).map (fun d => d.id)) ∧
    ((∀ j tj, findTask s j = some tj → tj.deps.contains i = false) →
        ∃ s₂, deleteTask s i false = .ok s₂ ∧ findTask s₂ i = none) ∧
    (∀ s₂, deleteTask s i true = .ok s₂ →
        findTask s₂ i = none ∧ StoreInv s₂) := by
  refine ⟨?_, ?_, ?_⟩
  · intro j tj hfj hdep
    have hjmem : j ∈ (getDependents s i).map (fun d => d.id) :=
      (mem_dependent_ids (storeInv_nodup hinv) hfj).mpr hdep
    have hne : (getDependents s i).isEmpty = false := by
      cases hq : getDependents s i with
      | nil =>
          rw [hq] at hjmem
          cases hjmem
      | cons a l => rfl
    refine ⟨?_, hjmem⟩
    rw [deleteTask_eq_some hf false]
    rw [if_pos (show ((!(getDependents s i).isEmpty && !false) = true) by
      rw [hne]; rfl)]
  · intro hnone
    have hemp : (getDependents s i).isEmpty = true := by
      cases hq : getDependents s i with
      | nil => rfl
      | cons a l =>
          have ha : a ∈ getDependents s i := by
            rw [hq]
            exact List.mem_cons_self a l
          have hmem := mem_getDependents.mp ha
          have hfa : findTask s a.id = some a :=
            mem_findTask (storeInv_nodup hinv) hmem.1
          have h2 := hmem.2
          rw [hnone a.id a hfa] at h2
          exact Bool.noConfusion h2
    have hok : deleteTask s i false
        = .ok (((getDependents s i).map (fun d => d.id)).foldl
            (fun acc d => updateDependencyStatus acc d) (stripTask s i)) := by
      rw [deleteTask_eq_some hf false]
      rw [if_neg (fun hcc : ((!(getDependents s i).isEmpty && !false) = true)
        => by rw [hemp] at hcc; exact Bool.noConfusion hcc)]
    exact ⟨_, hok, (deleteTask_inv hinv i false hok).2⟩
  · intro s₂ h2
    exact ⟨(deleteTask_inv hinv i true h2).2, (deleteTask_inv hinv i true h2).1⟩

/-- Two-task store: task 2 is blocked on the open task 1. -/
def c8Demo : Store :=
  [⟨1, .open_, [], false⟩, ⟨2, .blocked, [1], false⟩]

/-- The store a forced delete of task 1 leaves: task 2, freed and Open. -/
def c8Forced : Store := [⟨2, .open_, [], false⟩]

theorem c8_delete_witness :
    StoreInv c8Demo ∧ findTask c8Demo 1 = some ⟨1, .open_, [], false⟩ ∧
    (deleteTask c8Demo 1 false = .error (.hasDependents [2]) ∧
     2 ∈ (getDependents c8Demo 1).map (fun d => d.id)) ∧
    (findTask c8Forced 1 = none ∧ StoreInv c8Forced) := by
  have hmain := c8_delete c8Demo 1 ⟨1, .open_, [], false⟩
    (by unfold StoreInv; decide) rfl
  refine ⟨by unfold StoreInv; decide, rfl, ?_, ?_⟩
  · have h1 := hmain.1 2 ⟨2, .blocked, [1], false⟩ rfl rfl
    refine ⟨?_, h1.2⟩
    rw [h1.1]
    rfl
  · exact hmain.2.2 c8Forced rfl

/-- C4 (amended): under the provisos (`complete` only on a task whose
dependencies are complete, `update` never on a Completed task, `reopen` only
when no Completed task depends on the target), every committed operation
preserves unique ids, I1, I4 and the Blocked-iff invariant I3; and
completing the — non-recurring — last incomplete dependency of a Blocked
task flips that task to Open in the same transaction. -/
theorem c4_invariant_cascade (s : Store) (op : Op) (hinv : StoreInv s)
    (hallow : OpAllowed s op) :
    StoreInv (applyOp s op) ∧
    (∀ i, op = Op.complete i →
      ∀ j tj, findTask s j = some tj → tj.status = .blocked →
        tj.deps.contains i = true →
        (∀ d ∈ tj.deps, d ≠ i → isCompletedB s d = true) →
        (∀ ti, findTask s i = some ti → ti.recurring = false) →
        statusOf (applyOp s op) j = some TStatus.open_) := by
  constructor
  · cases op with
    | create deps r =>
        show StoreInv ((createTask s deps r).toOption.getD s)
        cases hc : createTask s deps r with
        | error e => exact hinv
        | ok s2 => exact createTask_inv hinv deps r hc
    | update i nd ns =>
        show StoreInv ((updateTask s i nd ns).toOption.getD s)
        cases hc : updateTask s i nd ns with
        | error e => exact hinv
        | ok s2 =>
            refine updateTask_inv hinv i nd ns ?_ hc
            intro t ht
            have hne := hallow t ht
            simp [hne]
    | complete i =>
        show StoreInv ((completeTask s i).toOption.getD s)
        cases hc : completeTask s i with
        | error e => exact hinv
        | ok s2 => exact (completeTask_inv hinv i hallow hc).1
    | reopen i =>
        show StoreInv ((reopenTask s i).toOption.getD s)
        cases hc : reopenTask s i with
        | error e => exact hinv
        | ok s2 =>
            refine reopenTask_inv hinv i ?_ hc
            intro t ht hdep
            have hne := hallow t ht hdep
            simp [hne]
    | delete i f =>
        show StoreInv ((deleteTask s i f).toOption.getD s)
        cases hc : deleteTask s i f with
        | error e => exact hinv
        | ok s2 => exact (deleteTask_inv hinv i f hc).1
  · intro i hop j tj hfj hbl hcont hoth hnr
    subst hop
    show statusOf ((completeTask s i).toOption.getD s) j = some TStatus.open_
    have hws := taskWf_spec (storeInv_find hinv hfj).1 i (contains_mem hcont)
    cases hfi : findTask s i with
    | none =>
        rw [hfi] at hws
        exact Bool.noConfusion hws.1
    | some t =>
        have hok : completeTask s i = .ok (onTaskComplete
            (setStatus s i (if t.recurring then .open_ else .completed)) i) := by
          unfold completeTask
          rw [hfi]
        rw [hok]
        exact (completeTask_inv hinv i hallow hok).2 j tj hfj hbl hcont hoth hnr

/-- Two-task store for the C4 witness and counterexample: task 2 is blocked
on the open, non-recurring task 1. -/
def c4W : Store :=
  [⟨1, .open_, [], false⟩, ⟨2, .blocked, [1], false⟩]

/-- The same shape with a recurring dependency: completing task 1 sets it
back to Open, so the blocked task 2 is not released. -/
def c4Rec : Store :=
  [⟨1, .open_, [], true⟩, ⟨2, .blocked, [1], false⟩]

theorem c4_invariant_cascade_witness :
    StoreInv c4W ∧
    (StoreInv (applyOp c4W (Op.complete 1)) ∧
     statusOf (applyOp c4W (Op.complete 1)) 2 = some TStatus.open_) := by
  have hallow : OpAllowed c4W (Op.complete 1) := by
    intro t ht
    have ht' : some (⟨1, .open_, [], false⟩ : STask) = some t := ht
    cases ht'
    rfl
  have hmain := c4_invariant_cascade c4W (Op.complete 1)
    (by unfold StoreInv; decide) hallow
  refine ⟨by unfold StoreInv; decide, hmain.1, ?_⟩
  refine hmain.2 1 rfl 2 ⟨2, .blocked, [1], false⟩ rfl rfl rfl ?_ ?_
  · intro d hd hne
    exfalso
    have hd1 : d = 1 := by
      cases hd with
      | head => rfl
      | tail _ h => cases h
    exact hne hd1
  · intro ti hti
    have hti' : some (⟨1, .open_, [], false⟩ : STask) = some ti := hti
    cases hti'
    rfl

/-- C4 counterexample: without the provisos the claim is false.  Completing
the Blocked task 2 directly (its dependency 1 is still Open) commits a store
that violates I3 — task 2 is Completed while its nonempty dependency list
has an incomplete member, yet it is not Blocked.  And completing the last
incomplete dependency of a Blocked task does *not* open the dependent when
that dependency is recurring: the completed task 1 returns to Open, so task
2 stays Blocked — P8 only holds for non-recurring dependencies. -/
theorem c4_counterexample :
    (storeInvB c4W = true ∧
     (completeTask c4W 2).toOption.map storeInvB = some false) ∧
    (storeInvB c4Rec = true ∧
     OpAllowed c4Rec (Op.complete 1) ∧
     (completeTask c4Rec 1).toOption.map (fun y => statusOf y 2)
        = some (some TStatus.blocked)) := by
  refine ⟨⟨by decide, by decide⟩, by decide, ?_, by decide⟩
  intro t ht
  have ht' : some (⟨1, TStatus.open_, [], true⟩ : STask) = some t := ht
  cases ht'
  rfl

end Churn
